import Mathlib

/-!
Verification of the O-IR optimization pipeline (lowering, const-fold, CSE,
DCE, WAT codegen) against its natural-language specification.

The Python sources under tools/oir and tools/pipeline operate on JSON
dictionaries.  We embed them shallowly: the JSON data model becomes Lean
structures/inductives mirroring the schema fields the code reads, and each
pass becomes a pure Lean function translated statement-by-statement from the
Python.  Modelling conventions used throughout (each is noted again at the
definition it concerns):
* JSON numeric literals are modelled by `Lit` (arbitrary-precision integer or
  float); Python floats are modelled by rationals.  No claim proved here
  depends on IEEE-754 rounding: the float facts used are only about exact
  zero tests and structural preservation.
* Python `int(x) & 0xFFFFFFFF` on arbitrary-precision integers equals
  `x % 2^32` (and similarly for 64 bits); we write the `%` form.
* Python dict fields that the code reads with `.get` and may be absent are
  modelled with `Option`.
* Python exceptions inside `try: ... except: return None` are modelled by
  `Option`; codegen errors (`raise`) are modelled by `Except String`.
-/

namespace Oir

/-- A JSON numeric literal as carried in O-IR `Const` values: either a Python
arbitrary-precision integer or a float (modelled as a rational). -/
inductive Lit where
  | i (n : Int)
  | f (q : ℚ)
deriving DecidableEq, Repr

/-- Truncation of a rational toward zero, as Python `int(float)` does. -/
def ratTrunc (q : ℚ) : Int := if 0 ≤ q then ⌊q⌋ else -⌊-q⌋

/-- Python `int(a)` applied to a literal that may be absent (`None`); `none`
propagates the exception path (`except: return None`). -/
def pyInt : Option Lit → Option Int
  | some (.i n) => some n
  | some (.f q) => some (ratTrunc q)
  | none => none

/-- Python `float(a)` applied to an optional literal. -/
def pyFloat : Option Lit → Option ℚ
  | some (.i n) => some (n : ℚ)
  | some (.f q) => some q
  | none => none

/-- Python `str(x)` on an optional string (`str(None) = "None"`). -/
def pyStr : Option String → String
  | some s => s
  | none => "None"

/-- Python `s.startswith(c)` for a single character `c`. -/
def strStarts (s : String) (c : Char) : Bool :=
  match s.data with
  | [] => false
  | a :: _ => a = c

/-- A result binding `{result: "%id", ty: {kind: k}}`; `ty` is the type-kind
string and may be absent. -/
structure Bind where
  result : String
  ty : Option String
deriving DecidableEq, Repr

/-- O-IR instructions (the tagged union of `kind` dictionaries).  Fields are
exactly the ones the passes and codegen read.  `Call` has no single `bind`
(the schema uses `binds`), matching `_result_id` returning `None` for it. -/
inductive Inst where
  | const (bind : Option Bind) (vty : Option String) (val : Option Lit)
  | unary (op : String) (bind : Option Bind) (arg : String)
  | binary (op : String) (bind : Option Bind) (lhs rhs : String)
  | select (bind : Option Bind) (cond ifTrue ifFalse : String)
  | load (bind : Option Bind) (base : String)
  | store (base : String) (val : String)
  | heapNew (bind : Option Bind) (fields : List String)
  | heapGet (bind : Option Bind) (obj : String)
  | heapSet (obj : String) (val : String)
  | tagOf (bind : Option Bind) (obj : String)
  | lenOf (bind : Option Bind) (obj : String)
  | guard (cond : String)
  | call (callee : String) (args : List String) (binds : List Bind)
deriving DecidableEq, Repr

/-- One case of a `Switch` terminator. -/
structure SwitchCase where
  target : String
  args : List String
deriving DecidableEq, Repr

/-- Block terminators.  The scrutinee field of `Switch` is called `on` in the
JSON; `on` is not a usable field name here. -/
inductive Term where
  | ret (values : List String)
  | br (target : String) (args : List String)
  | switch (onVal : String) (cases : List SwitchCase)
  | trap
deriving DecidableEq, Repr

/-- A basic block `{label, params, insts, term}`. -/
structure Block where
  label : String
  params : List String
  insts : List Inst
  term : Term
deriving DecidableEq, Repr

/-- A function parameter `{name, ty:{kind}}`. -/
structure Param where
  name : String
  ty : Option String
deriving DecidableEq, Repr

/-- An O-IR function.  `export` is a Lean keyword, hence `exported`; `linkage`
is `none` when the JSON key is absent (Python default "internal");
`attrsPure` models `attrs.pure`.  Result types are type-kind strings. -/
structure Func where
  name : String
  params : List Param
  results : List (Option String)
  blocks : List Block
  exported : Bool
  linkage : Option String
  attrsPure : Bool
deriving DecidableEq, Repr

/-- A table: only its element symbol list is read by the passes. -/
structure Table where
  elems : List String
deriving DecidableEq, Repr

/-- The O-IR module body.  `globals` and `dataSegments` are created empty by
lowering and never read or written by any pass or by codegen, so they are
omitted from the embedding. -/
structure Module where
  name : String
  functions : List Func
  tables : List Table
deriving DecidableEq, Repr

/-- A DCE/CSE certificate entry `{symbol, kind}`. -/
structure DceCert where
  symbol : String
  kind : String
deriving DecidableEq, Repr

/-- An erasure certificate entry `{symbol, reason}`. -/
structure EraseCert where
  symbol : String
  reason : String
deriving DecidableEq, Repr

/-- The certificate ledger `certificates:{erasure,dce,guards}`. -/
structure Certs where
  erasure : List EraseCert
  dce : List DceCert
  guards : List DceCert
deriving DecidableEq, Repr

/-- Pipeline metadata `{debug, optLevel}`. -/
structure Metadata where
  debug : Bool
  optLevel : Int
deriving DecidableEq, Repr

/-- A full O-IR document. -/
structure OIR where
  version : String
  tool : String
  module : Module
  certificates : Certs
  metadata : Metadata
deriving DecidableEq, Repr

/-! ## Constant folding (tools/oir/passes/const_fold.py) -/

/-- `_result_id` of const_fold.py: the bound result id, required to start
with `%`. -/
def result_id_cf (bind : Option Bind) : Option String :=
  match bind with
  | some b => if strStarts b.result '%' then some b.result else none
  | none => none

/-- `_bind_type_kind`: the type-kind string of the binding, if any. -/
def bind_type_kind (bind : Option Bind) : Option String :=
  match bind with
  | some b => b.ty
  | none => none

/-- `_const_val`: for a `Const`, its (type-kind, literal) pair, preferring
`value.ty` over `bind.ty`. -/
def const_val (bind : Option Bind) (vty : Option String) (val : Option Lit) :
    Option (String × Option Lit) :=
  match vty with
  | some k => some (k, val)
  | none =>
    match bind_type_kind bind with
    | some k => some (k, val)
    | none => none

/-- 2^32, the modulus of Python's `& 0xFFFFFFFF` on arbitrary ints. -/
def pow32 : Int := 4294967296

/-- 2^64, the modulus of Python's `& 0xFFFFFFFFFFFFFFFF`. -/
def pow64 : Int := 18446744073709551616

/-- `_eval_unary`.  Python's `~n` is `-n - 1`; `x & 0xFFFFFFFF` on an
arbitrary-precision int is `x % 2^32`.  Note the source masks only the
bitwise-not ops; `neg_i32`/`neg_i64` return the raw negation. -/
def eval_unary (op kty : String) (a : Option Lit) : Option Lit :=
  if op = "neg_i32" ∧ kty = "i32" then (pyInt a).map (fun n => Lit.i (-n))
  else if op = "neg_i64" ∧ kty = "i64" then (pyInt a).map (fun n => Lit.i (-n))
  else if op = "not_i32" ∧ kty = "i32" then
    (pyInt a).map (fun n => Lit.i ((-n - 1) % pow32))
  else if op = "not_i64" ∧ kty = "i64" then
    (pyInt a).map (fun n => Lit.i ((-n - 1) % pow64))
  else if op = "abs_f32" ∧ kty = "f32" then (pyFloat a).map (fun q => Lit.f |q|)
  else if op = "abs_f64" ∧ kty = "f64" then (pyFloat a).map (fun q => Lit.f |q|)
  else none

/-- `_eval_binary`.  Integer ops wrap via the mask; float division by an
exactly-zero divisor returns `None` (no fold). -/
def eval_binary (op kty : String) (a b : Option Lit) : Option Lit :=
  if kty = "i32" ∨ kty = "i64" then
    match pyInt a, pyInt b with
    | some ai, some bi =>
      if op = "add_i32" ∧ kty = "i32" then some (.i ((ai + bi) % pow32))
      else if op = "sub_i32" ∧ kty = "i32" then some (.i ((ai - bi) % pow32))
      else if op = "mul_i32" ∧ kty = "i32" then some (.i ((ai * bi) % pow32))
      else if op = "add_i64" ∧ kty = "i64" then some (.i ((ai + bi) % pow64))
      else if op = "sub_i64" ∧ kty = "i64" then some (.i ((ai - bi) % pow64))
      else if op = "mul_i64" ∧ kty = "i64" then some (.i ((ai * bi) % pow64))
      else none
    | _, _ => none
  else if kty = "f32" ∨ kty = "f64" then
    match pyFloat a, pyFloat b with
    | some af, some bf =>
      if op = "add_f32" ∧ kty = "f32" then some (.f (af + bf))
      else if op = "sub_f32" ∧ kty = "f32" then some (.f (af - bf))
      else if op = "mul_f32" ∧ kty = "f32" then some (.f (af * bf))
      else if op = "div_f32" ∧ kty = "f32" then
        if bf = 0 then none else some (.f (af / bf))
      else if op = "add_f64" ∧ kty = "f64" then some (.f (af + bf))
      else if op = "sub_f64" ∧ kty = "f64" then some (.f (af - bf))
      else if op = "mul_f64" ∧ kty = "f64" then some (.f (af * bf))
      else if op = "div_f64" ∧ kty = "f64" then
        if bf = 0 then none else some (.f (af / bf))
      else none
    | _, _ => none
  else none

/-- The per-block constant environment `const_env : %id -> (type-kind, lit)`,
a Python dict modelled as an association list where insertion prepends (so
lookup finds the most recent entry, matching dict overwrite). -/
abbrev CEnv := List (String × (String × Option Lit))

/-- Dict lookup. -/
def envLookup (e : CEnv) (k : String) : Option (String × Option Lit) :=
  match e with
  | [] => none
  | (k', v) :: t => if k' = k then some v else envLookup t k

/-- Dict insert/overwrite. -/
def envInsert (e : CEnv) (k : String) (v : String × Option Lit) : CEnv :=
  (k, v) :: e

/-- One iteration of the `_fold_block` loop on a single instruction: returns
the (possibly replaced) instruction and the updated environment. -/
def fold_step (env : CEnv) (inst : Inst) : Inst × CEnv :=
  match inst with
  | .const bind vty val =>
    (match result_id_cf bind, const_val bind vty val with
     | some rid, some cv => (inst, envInsert env rid cv)
     | _, _ => (inst, env))
  | .unary op bind arg =>
    (match result_id_cf bind, bind_type_kind bind with
     | some rid, some kty =>
       if kty ≠ "" ∧ strStarts arg '%' then
         match envLookup env arg with
         | some (_, aval) =>
           match eval_unary op kty aval with
           | some res =>
             (.const bind (some kty) (some res), envInsert env rid (kty, some res))
           | none => (inst, env)
         | none => (inst, env)
       else (inst, env)
     | _, _ => (inst, env))
  | .binary op bind lhs rhs =>
    (match result_id_cf bind, bind_type_kind bind with
     | some rid, some kty =>
       if kty ≠ "" ∧ strStarts lhs '%' ∧ strStarts rhs '%' then
         match envLookup env lhs, envLookup env rhs with
         | some (_, aval), some (_, bval) =>
           match eval_binary op kty aval bval with
           | some res =>
             (.const bind (some kty) (some res), envInsert env rid (kty, some res))
           | none => (inst, env)
         | _, _ => (inst, env)
       else (inst, env)
     | _, _ => (inst, env))
  | _ => (inst, env)

/-- The instruction loop of `_fold_block`, threading the environment. -/
def fold_insts (env : CEnv) : List Inst → List Inst × CEnv
  | [] => ([], env)
  | i :: t =>
    let (i', e') := fold_step env i
    let (t', e'') := fold_insts e' t
    (i' :: t', e'')

/-- `_fold_block`: fold a block's instructions; the terminator is untouched. -/
def fold_block (bb : Block) : Block :=
  { bb with insts := (fold_insts [] bb.insts).1 }

/-- `run_const_fold`: fold every block of every function. -/
def run_const_fold (o : OIR) : OIR :=
  { o with module :=
    { o.module with functions :=
      o.module.functions.map (fun fn => { fn with blocks := fn.blocks.map fold_block }) } }

/-! ## Common subexpression elimination (tools/oir/passes/cse.py) -/

/-- Generic association-list lookup, modelling Python dict lookup; insertion
prepends, so the head-most entry is the live one (dict overwrite). -/
def alookup {κ α : Type} [DecidableEq κ] : List (κ × α) → κ → Option α
  | [], _ => none
  | (k', v) :: t, k => if k' = k then some v else alookup t k

/-- The substitution map `old-id -> canonical-id`. -/
abbrev ReplMap := List (String × String)

/-- `_rewrite_value`: rewrite a `%`-value through the substitution map. -/
def rewrite_value (rm : ReplMap) (v : String) : String :=
  if strStarts v '%' then
    match alookup rm v with
    | some c => c
    | none => v
  else v

/-- `_rewrite_inst_operands`: rewrite every operand position of an
instruction.  The embedding's instruction type is closed, so the Python
"unknown kinds ignored" branch has no inhabitant here. -/
def rewrite_inst_operands (rm : ReplMap) : Inst → Inst
  | .const b vty val => .const b vty val
  | .unary op b arg => .unary op b (rewrite_value rm arg)
  | .binary op b lhs rhs => .binary op b (rewrite_value rm lhs) (rewrite_value rm rhs)
  | .select b c t f =>
    .select b (rewrite_value rm c) (rewrite_value rm t) (rewrite_value rm f)
  | .load b base => .load b (rewrite_value rm base)
  | .store base v => .store (rewrite_value rm base) (rewrite_value rm v)
  | .heapNew b fields => .heapNew b (fields.map (rewrite_value rm))
  | .heapGet b obj => .heapGet b (rewrite_value rm obj)
  | .heapSet obj v => .heapSet (rewrite_value rm obj) (rewrite_value rm v)
  | .tagOf b obj => .tagOf b (rewrite_value rm obj)
  | .lenOf b obj => .lenOf b (rewrite_value rm obj)
  | .guard c => .guard (rewrite_value rm c)
  | .call callee args binds => .call callee (args.map (rewrite_value rm)) binds

/-- `_rewrite_term`: rewrite a terminator's operands. -/
def rewrite_term (rm : ReplMap) : Term → Term
  | .ret vs => .ret (vs.map (rewrite_value rm))
  | .br target args => .br target (args.map (rewrite_value rm))
  | .switch onv cases =>
    .switch (rewrite_value rm onv)
      (cases.map (fun c => { c with args := c.args.map (rewrite_value rm) }))
  | .trap => .trap

/-- `_const_key` of cse.py: the `(type-kind, literal)` key of a `Const`.
Python stringifies the kind (`str(kty)`, so `None` becomes `"None"`); we keep
the `Option` pair, an injective image of the same data for every type-kind
actually occurring. -/
def cse_const_key : Inst → Option (Option String × Option Lit)
  | .const bind vty val =>
    (match vty with
     | some k => some (some k, val)
     | none => some (bind_type_kind bind, val))
  | _ => none

/-- `_result_id` of cse.py (same as const_fold's: requires a `%`-id). -/
def result_id_cse : Inst → Option String
  | .const bind _ _ => result_id_cf bind
  | .unary _ bind _ => result_id_cf bind
  | .binary _ bind _ _ => result_id_cf bind
  | .select bind _ _ _ => result_id_cf bind
  | .load bind _ => result_id_cf bind
  | .heapNew bind _ => result_id_cf bind
  | .heapGet bind _ => result_id_cf bind
  | .tagOf bind _ => result_id_cf bind
  | .lenOf bind _ => result_id_cf bind
  | .store _ _ => none
  | .heapSet _ _ => none
  | .guard _ => none
  | .call _ _ _ => none

/-- The canonical map `(type,literal) -> canonical %id`. -/
abbrev ConstMap := List ((Option String × Option Lit) × String)

/-- The instruction loop of `_run_cse_block`: operands are first rewritten,
then duplicate `Const`s are dropped (with a certificate) and fresh ones
registered as canonical. -/
def cse_insts (fnName : String) (cm : ConstMap) (rm : ReplMap) :
    List Inst → List Inst × ConstMap × ReplMap × List DceCert
  | [] => ([], cm, rm, [])
  | inst :: rest =>
    let inst' := rewrite_inst_operands rm inst
    match cse_const_key inst', result_id_cse inst' with
    | some key, some rid =>
      (match alookup cm key with
       | some can =>
         let rm' := (rid, can) :: rm
         let (out, cmf, rmf, certs) := cse_insts fnName cm rm' rest
         (out, cmf, rmf, ⟨fnName ++ rid, "binding"⟩ :: certs)
       | none =>
         let cm' := (key, rid) :: cm
         let (out, cmf, rmf, certs) := cse_insts fnName cm' rm rest
         (inst' :: out, cmf, rmf, certs))
    | _, _ =>
      let (out, cmf, rmf, certs) := cse_insts fnName cm rm rest
      (inst' :: out, cmf, rmf, certs)

/-- `_run_cse_block`: run CSE over one block, rewriting the terminator with
the final substitution map; returns the appended certificates. -/
def run_cse_block (fn : Func) (bb : Block) : Block × List DceCert :=
  let (out, _, rmf, certs) := cse_insts fn.name [] [] bb.insts
  ({ bb with insts := out, term := rewrite_term rmf bb.term }, certs)

/-- The block loop of `run_cse` for one function. -/
def cse_blocks (fn : Func) : List Block → List Block × List DceCert
  | [] => ([], [])
  | bb :: rest =>
    let (bb', cs) := run_cse_block fn bb
    let (rest', cs') := cse_blocks fn rest
    (bb' :: rest', cs ++ cs')

/-- The function loop of `run_cse`. -/
def cse_fns : List Func → List Func × List DceCert
  | [] => ([], [])
  | fn :: rest =>
    let (bbs, cs) := cse_blocks fn fn.blocks
    let (rest', cs') := cse_fns rest
    ({ fn with blocks := bbs } :: rest', cs ++ cs')

/-- `run_cse`: CSE over the whole document, appending certificates to the
`dce` ledger (the certificate structure is always present in the embedding,
so `_ensure_certs` is the identity). -/
def run_cse (o : OIR) : OIR :=
  let (fns, certs) := cse_fns o.module.functions
  { o with module := { o.module with functions := fns },
           certificates :=
             { o.certificates with dce := o.certificates.dce ++ certs } }

/-! ## Dead code elimination (tools/oir/passes/dce.py) -/

/-- The `bind` dictionary of an instruction, for the kinds that carry one. -/
def bindOf : Inst → Option Bind
  | .const b _ _ => b
  | .unary _ b _ => b
  | .binary _ b _ _ => b
  | .select b _ _ _ => b
  | .load b _ => b
  | .heapNew b _ => b
  | .heapGet b _ => b
  | .tagOf b _ => b
  | .lenOf b _ => b
  | .store _ _ => none
  | .heapSet _ _ => none
  | .guard _ => none
  | .call _ _ _ => none

/-- `_result_id` of dce.py: any string `bind.result` counts (no `%` check in
this file); `Call` never yields a result id. -/
def result_id_dce (inst : Inst) : Option String :=
  (bindOf inst).map Bind.result

/-- `_value_uses_in_inst`: the operand value-ids of an instruction, keeping
only strings that start with `%`. -/
def value_uses_in_inst (inst : Inst) : List String :=
  (match inst with
   | .const _ _ _ => []
   | .unary _ _ arg => [arg]
   | .binary _ _ lhs rhs => [lhs, rhs]
   | .select _ c t f => [c, t, f]
   | .call _ args _ => args
   | .load _ base => [base]
   | .store base v => [base, v]
   | .heapNew _ fields => fields
   | .heapGet _ obj => [obj]
   | .heapSet obj v => [obj, v]
   | .tagOf _ obj => [obj]
   | .lenOf _ obj => [obj]
   | .guard c => [c]).filter (fun u => strStarts u '%')

/-- `_term_uses`: the `%`-operands of a terminator. -/
def term_uses : Term → List String
  | .ret vs => vs.filter (fun v => strStarts v '%')
  | .br _ args => args.filter (fun a => strStarts a '%')
  | .switch onv cases =>
    (if strStarts onv '%' then [onv] else []) ++
      (cases.map (fun c => c.args.filter (fun a => strStarts a '%'))).flatten
  | .trap => []

/-- `_is_pure`: membership in `PURE_INSTRUCTION_KINDS`. -/
def is_pure : Inst → Bool
  | .const _ _ _ => true
  | .unary _ _ _ => true
  | .binary _ _ _ _ => true
  | .select _ _ _ _ => true
  | .tagOf _ _ => true
  | .lenOf _ _ => true
  | _ => false

/-- The live set, a Python `set` of value ids modelled as a duplicate-free
list (membership is all that is ever observed). -/
abbrev Live := List String

/-- Add a list of uses to the live set (`live.add(u)` repeatedly). -/
def addUses (live : Live) (us : List String) : Live :=
  us.foldl (fun L u => L.insert u) live

/-- The reverse scan of `dce_instructions_in_function`: recursing on the tail
first processes later instructions first, exactly like Python's
`for inst in reversed(insts)`; the kept list comes out in program order and
certificates in scan (reverse-program) order. -/
def dce_rev (fnName : String) : List Inst → Live → List Inst × Live × List DceCert
  | [], live => ([], live, [])
  | inst :: rest, live =>
    let (keptRest, live', certs) := dce_rev fnName rest live
    match result_id_dce inst with
    | none => (inst :: keptRest, addUses live' (value_uses_in_inst inst), certs)
    | some rid =>
      if rid ∈ live' then
        (inst :: keptRest, addUses live' (value_uses_in_inst inst), certs)
      else if is_pure inst then
        (keptRest, live', certs ++ [⟨fnName ++ rid, "binding"⟩])
      else
        (inst :: keptRest, addUses live' (value_uses_in_inst inst), certs)

/-- One block of the phase-B loop: first the conservative forward scan adding
every operand referenced anywhere in the block to `live`, then the reverse
scan dropping dead pure instructions. -/
def dce_block (fnName : String) (live : Live) (bb : Block) :
    Block × Live × List DceCert :=
  let live1 := bb.insts.foldl (fun L i => addUses L (value_uses_in_inst i)) live
  let (kept, live2, certs) := dce_rev fnName bb.insts live1
  ({ bb with insts := kept }, live2, certs)

/-- The block loop of phase B, threading the function-wide live set. -/
def dce_blocks (fnName : String) (live : Live) :
    List Block → List Block × Live × List DceCert
  | [] => ([], live, [])
  | bb :: rest =>
    let (bb', live', cs) := dce_block fnName live bb
    let (rest', live'', cs') := dce_blocks fnName live' rest
    (bb' :: rest', live'', cs ++ cs')

/-- `dce_instructions_in_function`: seed the live set from every terminator,
then scan the blocks. -/
def dce_instructions_in_function (fn : Func) : Func × List DceCert :=
  let live0 := fn.blocks.foldl (fun L bb => addUses L (term_uses bb.term)) []
  let (bbs, _, certs) := dce_blocks fn.name live0 fn.blocks
  ({ fn with blocks := bbs }, certs)

/-- `dce_instructions`: phase B over every function. -/
def dce_instructions : List Func → List Func × List DceCert
  | [] => ([], [])
  | fn :: rest =>
    let (fn', cs) := dce_instructions_in_function fn
    let (rest', cs') := dce_instructions rest
    (fn' :: rest', cs ++ cs')

/-- `_collect_callees`: the (nonempty) callee names of all `Call`s in a
function.  Python collects them into a set; only membership is observed. -/
def collect_callees (fn : Func) : List String :=
  (fn.blocks.map (fun bb =>
    bb.insts.filterMap (fun i =>
      match i with
      | .call c _ _ => if c ≠ "" then some c else none
      | _ => none))).flatten

/-- `_collect_table_refs`: every nonempty symbol in any table's elems. -/
def collect_table_refs (m : Module) : List String :=
  (m.tables.map (fun t => t.elems.filter (fun s => s ≠ ""))).flatten

/-- The dict `name_to_fn`: later entries overwrite earlier ones, so lookup
returns the last function with the given name. -/
def name_to_fn (fns : List Func) (n : String) : Option Func :=
  (fns.filter (fun fn => fn.name = n)).getLast?

/-- `_function_linkage`: default and normalize to `"internal"`. -/
def function_linkage (fn : Func) : String :=
  match fn.linkage with
  | some lk => if lk = "internal" ∨ lk = "external" then lk else "internal"
  | none => "internal"

/-- The seed of the used set: names of exported functions (as keyed in
`name_to_fn`) plus all table references. -/
def used_seed (m : Module) : Finset String :=
  ((m.functions.map Func.name).filter (fun n =>
      match name_to_fn m.functions n with
      | some fn => fn.exported
      | none => false)).toFinset ∪ (collect_table_refs m).toFinset

/-- The callees contributed by one used name in the call-graph closure:
callees of the function it names (when it names one) that themselves name a
function of the module. -/
def callee_contrib (fns : List Func) (n : String) : List String :=
  match name_to_fn fns n with
  | some fn => (collect_callees fn).filter (fun c => (name_to_fn fns c).isSome)
  | none => []

/-- The callees contributed by one step of the call-graph closure: callees of
used functions that name a function of the module. -/
def step_callees (fns : List Func) (used : Finset String) : List String :=
  ((fns.map Func.name).filter (fun n => decide (n ∈ used))).foldr
    (fun n acc => callee_contrib fns n ++ acc) []

/-- One parallel step of the closure.  The Python source grows `used` by
chaotic iteration inside a `while changed` loop; both compute the least fixed
point of the same monotone operator over the seed, which is all later proofs
use. -/
def used_step (fns : List Func) (used : Finset String) : Finset String :=
  used ∪ (step_callees fns used).toFinset

/-- The `while changed` fixed-point loop, fuelled; `fns.length + 1` units of
fuel always reach the fixed point (each productive step adds a function
name). -/
def used_loop (fns : List Func) : Nat → Finset String → Finset String
  | 0, used => used
  | fuel + 1, used =>
    let u' := used_step fns used
    if u' = used then used else used_loop fns fuel u'

/-- The filtering loop of `dce_functions`: drop unused internal non-exported
functions, emitting a `function` certificate per removal. -/
def dce_fns_split (used : Finset String) : List Func → List Func × List DceCert
  | [] => ([], [])
  | fn :: rest =>
    let (kept, certs) := dce_fns_split used rest
    if fn.name ∉ used ∧ function_linkage fn = "internal" ∧ fn.exported = false then
      (kept, ⟨fn.name, "function"⟩ :: certs)
    else (fn :: kept, certs)

/-- `dce_functions` (phase A): call-graph closure then removal. -/
def dce_functions (m : Module) : Module × List DceCert :=
  let used := used_loop m.functions (m.functions.length + 1) (used_seed m)
  let (kept, certs) := dce_fns_split used m.functions
  ({ m with functions := kept }, certs)

/-- `run_dce`: phase A (functions) then phase B (instructions), appending all
certificates to the `dce` ledger in emission order. -/
def run_dce (o : OIR) : OIR :=
  let (m1, fcerts) := dce_functions o.module
  let (fns2, icerts) := dce_instructions m1.functions
  { o with module := { m1 with functions := fns2 },
           certificates :=
             { o.certificates with
                 dce := o.certificates.dce ++ fcerts ++ icerts } }

/-! ## Lowering (tools/oir/lower_from_tir.py) -/

/-- A T-IR term, as far as the MVP lowerer inspects it: a `Lambda` carries its
parameter's name (`term.param.name`, absent when the param dict is missing or
nameless) and its body; a `Var` carries its name; any other `kind` is opaque;
`missing` is the absent/kindless body dict (`term.get("body")` defaulted to
the empty dict). -/
inductive TTerm where
  | lam (param : Option String) (body : TTerm)
  | var (vname : Option String)
  | other (kind : String)
  | missing
deriving DecidableEq, Repr

/-- A T-IR declaration `{kind, name, term?, proof_relevance?}`. -/
structure TDecl where
  kind : String
  name : Option String
  term : Option TTerm
  proofRelevance : Option String
deriving DecidableEq, Repr

/-- The T-IR module body. -/
structure TModule where
  name : Option String
  decls : List TDecl
deriving DecidableEq, Repr

/-- A T-IR document. -/
structure TIR where
  version : String
  tmodule : TModule
deriving DecidableEq, Repr

/-- `LowerFromTIR._lower_definition`: recognize the identity-lambda shape
`Lambda{param: x, body: Var{x}}` (Python compares `body.get("name") ==
param.get("name")`, so two absent names also match) and emit the single-block
identity function; anything else is a non-fatal skip (`none`). -/
def lower_definition (d : TDecl) : Option Func :=
  match d.term with
  | some (.lam param body) =>
    (match body with
     | .var vn =>
       if vn = param then
         let xName := match param with
                      | some s => if s = "" then "x" else s
                      | none => "x"
         some { name := pyStr d.name,
                params := [⟨xName, some "i32"⟩],
                results := [some "i32"],
                blocks := [⟨"entry", [], [], .ret ["%" ++ xName]⟩],
                exported := true,
                linkage := none,
                attrsPure := true }
       else none
     | _ => none)
  | _ => none

/-- `LowerFromTIR._make_stub_function`. -/
def make_stub_function : Func :=
  { name := "stub_entry", params := [], results := [],
    blocks := [⟨"entry", [], [], .ret []⟩],
    exported := false, linkage := none, attrsPure := true }

/-- The declaration loop of `LowerFromTIR.lower`: proof-relevant definitions
are erased with a certificate (only when the symbol is nonempty, matching
`if sym:`), other definitions go through `_lower_definition`, `Inductive`
and unknown kinds are ignored. -/
def lower_decls : List TDecl → List Func × List EraseCert
  | [] => ([], [])
  | d :: rest =>
    let (fns, certs) := lower_decls rest
    if d.kind = "Definition" ∧ d.proofRelevance = some "proof" then
      let sym := match d.name with
                 | some s => s
                 | none => ""
      (fns, (if sym ≠ "" then [EraseCert.mk sym "proof-irrelevant"] else []) ++ certs)
    else if d.kind = "Definition" then
      match lower_definition d with
      | some fn => (fn :: fns, certs)
      | none => (fns, certs)
    else (fns, certs)

/-- `LowerFromTIR.lower` with the default `LowerConfig` (debug=False, opt=2):
lower every declaration, synthesize the stub when nothing lowered, and
assemble the O-IR document. -/
def lower (tir : TIR) : OIR :=
  let modName := match tir.tmodule.name with
                 | some s => if s = "" then "Module" else s
                 | none => "Module"
  let (fns0, ecerts) := lower_decls tir.tmodule.decls
  let fns := if fns0.isEmpty then [make_stub_function] else fns0
  { version := tir.version,
    tool := "coqwasm-oir-lower",
    module := { name := modName, functions := fns, tables := [] },
    certificates := { erasure := ecerts, dce := [], guards := [] },
    metadata := { debug := false, optLevel := 2 } }

/-! ## Code generation (tools/pipeline/compile_oir_to_wat.py)

Codegen raises on unsupported constructs; we model it in `Except String`.
Error messages are carried abridged (Python formats them with `repr`). -/

/-- Python `ch.isalnum()` for one character.  On the ASCII range it is
exactly ASCII letters and digits.  Beyond ASCII Python is Unicode-aware
(alphabetic/numeric code points are alnum); the embedding models the ASCII
range exactly plus the non-ASCII code points this development evaluates it
at: U+00E9 LATIN SMALL LETTER E WITH ACUTE, a lowercase letter, for which
Python returns True.  No theorem below evaluates this function at any other
non-ASCII character. -/
def pyCharIsAlnum (c : Char) : Bool :=
  if c.toNat < 128 then c.isAlpha || c.isDigit
  else c = 'é'

/-- `_sanitize_sym`: keep alnum and `_ . /`, replace everything else by `_`. -/
def sanitize_sym (name : String) : String :=
  String.mk (name.data.map (fun ch =>
    if pyCharIsAlnum ch || ch = '_' || ch = '.' || ch = '/' then ch else '_'))

/-- `_ty_to_wat`: WAT primitive types pass through, `unit` becomes the empty
string ("represented by no result"), anything else (including an absent or
empty ty dict) raises. -/
def ty_to_wat (ty : Option String) : Except String String :=
  match ty with
  | some k =>
    if k = "i32" ∨ k = "i64" ∨ k = "f32" ∨ k = "f64" then Except.ok k
    else if k = "unit" then Except.ok ""
    else Except.error ("unsupported OType in MVP codegen: " ++ k)
  | none => Except.error "unsupported OType in MVP codegen: None"

/-- `_unop_to_wat` lookup table. -/
def unop_to_wat (op : String) : Option String :=
  if op = "abs_f32" then some "f32.abs"
  else if op = "abs_f64" then some "f64.abs"
  else none

/-- `_binop_to_wat` lookup table. -/
def binop_to_wat (op : String) : Option String :=
  alookup [
    ("add_i32", "i32.add"), ("sub_i32", "i32.sub"), ("mul_i32", "i32.mul"),
    ("div_s_i32", "i32.div_s"), ("div_u_i32", "i32.div_u"),
    ("rem_s_i32", "i32.rem_s"), ("rem_u_i32", "i32.rem_u"),
    ("and_i32", "i32.and"), ("or_i32", "i32.or"), ("xor_i32", "i32.xor"),
    ("shl_i32", "i32.shl"), ("shr_s_i32", "i32.shr_s"), ("shr_u_i32", "i32.shr_u"),
    ("eq_i32", "i32.eq"), ("ne_i32", "i32.ne"),
    ("lt_s_i32", "i32.lt_s"), ("lt_u_i32", "i32.lt_u"),
    ("le_s_i32", "i32.le_s"), ("le_u_i32", "i32.le_u"),
    ("gt_s_i32", "i32.gt_s"), ("gt_u_i32", "i32.gt_u"),
    ("ge_s_i32", "i32.ge_s"), ("ge_u_i32", "i32.ge_u"),
    ("add_i64", "i64.add"), ("sub_i64", "i64.sub"), ("mul_i64", "i64.mul"),
    ("div_s_i64", "i64.div_s"), ("div_u_i64", "i64.div_u"),
    ("and_i64", "i64.and"), ("or_i64", "i64.or"), ("xor_i64", "i64.xor"),
    ("shl_i64", "i64.shl"), ("shr_s_i64", "i64.shr_s"), ("shr_u_i64", "i64.shr_u"),
    ("eq_i64", "i64.eq"), ("ne_i64", "i64.ne"),
    ("lt_s_i64", "i64.lt_s"), ("le_s_i64", "i64.le_s"),
    ("gt_s_i64", "i64.gt_s"), ("ge_s_i64", "i64.ge_s"),
    ("add_f32", "f32.add"), ("sub_f32", "f32.sub"), ("mul_f32", "f32.mul"),
    ("div_f32", "f32.div"),
    ("eq_f32", "f32.eq"), ("ne_f32", "f32.ne"), ("lt_f32", "f32.lt"),
    ("le_f32", "f32.le"), ("gt_f32", "f32.gt"), ("ge_f32", "f32.ge"),
    ("add_f64", "f64.add"), ("sub_f64", "f64.sub"), ("mul_f64", "f64.mul"),
    ("div_f64", "f64.div"),
    ("eq_f64", "f64.eq"), ("ne_f64", "f64.ne"), ("lt_f64", "f64.lt"),
    ("le_f64", "f64.le"), ("gt_f64", "f64.gt"), ("ge_f64", "f64.ge")] op

/-- Rendering of a `Const` literal into WAT text (`f"{wty}.const {cval}"`).
An absent value renders as Python's `None`; float repr is abridged (no claim
inspects a rendered float). -/
def render_lit : Option Lit → String
  | none => "None"
  | some (.i n) => toString n
  | some (.f q) => toString q

/-- The parameter loop of `_func_to_wat` over `enumerate(params)`: falsy
(empty) names fall back to `p0`, `p1`, ... -/
def params_to_wat : List (Nat × Param) → Except String (List String × List String)
  | [] => .ok ([], [])
  | (i, p) :: rest => do
    let pname := if p.name = "" then "p" ++ toString i else p.name
    let wty ← ty_to_wat p.ty
    let psym := sanitize_sym pname
    let (syms, wps) ← params_to_wat rest
    .ok (psym :: syms, ("(param $" ++ psym ++ " " ++ wty ++ ")") :: wps)

/-- `_ensure_local`: the locals table keeps dict insertion order. -/
def ensure_local (m : List (String × String)) (n w : String) :
    List (String × String) :=
  if (alookup m n).isSome then m else m ++ [(n, w)]

/-- `_emit_get`: a `%`-reference must resolve to a parameter or a previously
bound local. -/
def emit_get (fname : String) (paramSyms : List String)
    (localsMap : List (String × String)) (vid : String) : Except String String :=
  if strStarts vid '%' then
    let sy := String.mk (vid.data.drop 1)
    if sy ∈ paramSyms ∨ (alookup localsMap sy).isSome then
      .ok ("(local.get $" ++ sy ++ ")")
    else .error ("function " ++ fname ++ ": reference to unknown symbol " ++ sy)
  else .error ("function " ++ fname ++ ": unsupported value ref " ++ vid)

/-- The instruction loop of `_func_to_wat`, threading the locals table and
emitting WAT lines. -/
def insts_to_wat (fname : String) (paramSyms : List String) :
    List Inst → List (String × String) →
    Except String (List (String × String) × List String)
  | [], lm => .ok (lm, [])
  | inst :: rest, lm => do
    let (lm', lines) ← (do
      match inst with
      | .const bind vty val =>
        (match bind with
         | some b =>
           if strStarts b.result '%' then do
             let lname := String.mk (b.result.data.drop 1)
             let wty ← ty_to_wat b.ty
             let lm' := ensure_local lm lname wty
             let cty := match vty with
                        | some k => some k
                        | none => b.ty
             let wcty ← ty_to_wat cty
             if wcty ≠ wty then
               .error ("function " ++ fname ++ ": Const type mismatch")
             else
               .ok (lm', [wty ++ ".const " ++ render_lit val,
                          "(local.set $" ++ lname ++ ")"])
           else .error ("function " ++ fname ++ ": Const requires single-result bind")
         | none => .error ("function " ++ fname ++ ": Const requires single-result bind"))
      | .unary op bind arg =>
        (match bind with
         | some b =>
           if strStarts b.result '%' then do
             let lname := String.mk (b.result.data.drop 1)
             let wty ← ty_to_wat b.ty
             let lm' := ensure_local lm lname wty
             let lines ←
               (if op = "neg_i32" ∨ op = "neg_i64" then do
                  let zty := if op = "neg_i32" then "i32" else "i64"
                  let g ← emit_get fname paramSyms lm' arg
                  .ok [zty ++ ".const 0", g, zty ++ ".sub"]
                else if op = "not_i32" ∨ op = "not_i64" then do
                  let zty := if op = "not_i32" then "i32" else "i64"
                  let g ← emit_get fname paramSyms lm' arg
                  .ok [zty ++ ".const -1", g, zty ++ ".xor"]
                else
                  match unop_to_wat op with
                  | some wop => do
                    let g ← emit_get fname paramSyms lm' arg
                    .ok [g, wop]
                  | none =>
                    .error ("function " ++ fname ++ ": unsupported unary op " ++ op))
             .ok (lm', lines ++ ["(local.set $" ++ lname ++ ")"])
           else .error ("function " ++ fname ++ ": Unary requires single-result bind")
         | none => .error ("function " ++ fname ++ ": Unary requires single-result bind"))
      | .binary op bind lhs rhs =>
        (match binop_to_wat op with
         | none => .error ("function " ++ fname ++ ": unsupported binary op " ++ op)
         | some wop =>
           match bind with
           | some b =>
             if strStarts b.result '%' then do
               let lname := String.mk (b.result.data.drop 1)
               let wty ← ty_to_wat b.ty
               let lm' := ensure_local lm lname wty
               let gl ← emit_get fname paramSyms lm' lhs
               let gr ← emit_get fname paramSyms lm' rhs
               .ok (lm', [gl, gr, wop, "(local.set $" ++ lname ++ ")"])
             else .error ("function " ++ fname ++ ": Binary requires single-result bind")
           | none => .error ("function " ++ fname ++ ": Binary requires single-result bind"))
      | .select bind cond tval fval =>
        (match bind with
         | some b =>
           if strStarts b.result '%' then do
             let lname := String.mk (b.result.data.drop 1)
             let wty ← ty_to_wat b.ty
             let lm' := ensure_local lm lname wty
             let gt ← emit_get fname paramSyms lm' tval
             let gf ← emit_get fname paramSyms lm' fval
             let gc ← emit_get fname paramSyms lm' cond
             .ok (lm', [gt, gf, gc, "select", "(local.set $" ++ lname ++ ")"])
           else .error ("function " ++ fname ++ ": Select requires single-result bind")
         | none => .error ("function " ++ fname ++ ": Select requires single-result bind"))
      | .call callee args binds =>
        if callee = "" then
          .error ("function " ++ fname ++ ": Call requires string callee identifier")
        else do
          let argLines ← args.mapM (emit_get fname paramSyms lm)
          let callLine := "(call $" ++ sanitize_sym callee ++ ")"
          match binds with
          | [] => .ok (lm, argLines ++ [callLine])
          | [b] =>
            if strStarts b.result '%' then do
              let lname := String.mk (b.result.data.drop 1)
              let wty ← ty_to_wat b.ty
              let lm' := ensure_local lm lname wty
              .ok (lm', argLines ++ [callLine, "(local.set $" ++ lname ++ ")"])
            else .error ("function " ++ fname ++ ": Call requires single-result bind")
          | _ =>
            .error ("function " ++ fname ++ ": Call with multiple results not supported in MVP")
      | .load _ _ => .error ("function " ++ fname ++ ": instruction kind not supported in MVP")
      | .store _ _ => .error ("function " ++ fname ++ ": instruction kind not supported in MVP")
      | .heapNew _ _ => .error ("function " ++ fname ++ ": instruction kind not supported in MVP")
      | .heapGet _ _ => .error ("function " ++ fname ++ ": instruction kind not supported in MVP")
      | .heapSet _ _ => .error ("function " ++ fname ++ ": instruction kind not supported in MVP")
      | .guard _ => .error ("function " ++ fname ++ ": instruction kind not supported in MVP")
      | .tagOf _ _ => .error ("function " ++ fname ++ ": instruction kind not supported in MVP")
      | .lenOf _ _ => .error ("function " ++ fname ++ ": instruction kind not supported in MVP"))
    let (lmf, linesRest) ← insts_to_wat fname paramSyms rest lm'
    .ok (lmf, lines ++ linesRest)

/-- The results section of `_func_to_wat`: at most one result; a result whose
WAT type is empty (`unit`) raises `invalid unit type in results`. -/
def results_to_wat (fname : String) (results : List (Option String)) :
    Except String (List String) :=
  if results.length > 1 then
    .error ("function " ++ fname ++ ": multiple results not supported in MVP")
  else
    match results with
    | [] => .ok []
    | r :: _ => do
      let wty ← ty_to_wat r
      if wty = "" then
        .error ("function " ++ fname ++ ": invalid unit type in results")
      else .ok ["(result " ++ wty ++ ")"]

/-- Return lowering of `_func_to_wat`: only `Return` with zero or one value,
the value resolving to a parameter or local. -/
def ret_to_wat (fname : String) (paramSyms : List String)
    (localsMap : List (String × String)) (term : Term) :
    Except String (List String) :=
  match term with
  | .ret vals =>
    (match vals with
     | [] => .ok ["nop"]
     | [v] =>
       if strStarts v '%' then
         let sym := String.mk (v.data.drop 1)
         if sym ∈ paramSyms ∨ (alookup localsMap sym).isSome then
           .ok ["(local.get $" ++ sym ++ ")"]
         else .error ("function " ++ fname ++ ": Return references unknown symbol " ++ sym)
       else .error ("function " ++ fname ++ ": MVP expects Return of single %symbol value")
     | _ => .error ("function " ++ fname ++ ": multiple return values not supported in MVP"))
  | _ => .error ("function " ++ fname ++ ": only Return terminator supported in MVP")

/-- `_func_to_wat`: assemble one function's WAT text.  Python's
`" ".join(...).strip()` is modelled by the join alone: every joined part is
parenthesized, so `strip` only matters for the empty join, which is checked
explicitly. -/
def func_to_wat (fn : Func) : Except String String := do
  let name := fn.name
  let sname := sanitize_sym name
  let (paramSyms, watParams) ← params_to_wat fn.params.enum
  match fn.blocks with
  | [] => .error ("function " ++ name ++ ": expected at least one basic block")
  | entry :: _ => do
    let (localsMap, instLines) ← insts_to_wat name paramSyms entry.insts []
    let watResults ← results_to_wat name fn.results
    let retLines ← ret_to_wat name paramSyms localsMap entry.term
    let exportAttr := if fn.exported then "(export \"" ++ sname ++ "\") " else ""
    let headerParts := String.intercalate " " (watParams ++ watResults)
    let header := if headerParts = "" then "(func $" ++ sname
                  else "(func $" ++ sname ++ " " ++ headerParts
    let localsDecls := localsMap.map (fun p => "(local $" ++ p.1 ++ " " ++ p.2 ++ ")")
    let bodyLines := localsDecls ++ instLines ++ retLines
    let body := if bodyLines.isEmpty then "nop"
                else String.intercalate "\n      " bodyLines
    .ok ("  " ++ exportAttr ++ header ++ "\n      " ++ body ++ "\n  )")

/-- The function loop of `oir_to_wat` (`for fn in functions:
parts.append(_func_to_wat(fn))`), stopping at the first raise. -/
def funcs_to_wat : List Func → Except String (List String)
  | [] => .ok []
  | fn :: rest => do
    let t ← func_to_wat fn
    let ts ← funcs_to_wat rest
    .ok (t :: ts)

/-- `oir_to_wat`: the empty module short-circuits; otherwise the memory
prologue plus each function's text. -/
def oir_to_wat (o : OIR) : Except String String :=
  if o.module.functions.isEmpty then .ok "(module)\n"
  else do
    let funTxts ← funcs_to_wat o.module.functions
    .ok ("(module\n  (memory (export \"memory\") 1)\n" ++
         String.intercalate "\n" funTxts ++ "\n)\n")

/-! ## Constant folding: frame lemmas

`fold_step` either keeps an instruction verbatim or replaces a `Unary`/
`Binary` whose operands are known constants by a `Const` with the same bind.
-/

/-- The guard under which `_fold_block` may replace an instruction: a
`Unary`/`Binary` with a `%`-result, a nonempty bind type, and every operand a
`%`-id present in the constant environment ("all-constant known operands"). -/
def fold_candidate (env : CEnv) : Inst → Prop
  | .unary _ bind arg =>
    (result_id_cf bind).isSome = true ∧
      (∃ kty, bind_type_kind bind = some kty ∧ kty ≠ "") ∧
      strStarts arg '%' = true ∧ (envLookup env arg).isSome = true
  | .binary _ bind lhs rhs =>
    (result_id_cf bind).isSome = true ∧
      (∃ kty, bind_type_kind bind = some kty ∧ kty ≠ "") ∧
      strStarts lhs '%' = true ∧ strStarts rhs '%' = true ∧
      (envLookup env lhs).isSome = true ∧ (envLookup env rhs).isSome = true
  | _ => False

/-- The constant environment `_fold_block` has built when its forward scan
reaches instruction index `i` of a block's instruction list. -/
def fold_env_at (insts : List Inst) (i : Nat) : CEnv :=
  (fold_insts [] (insts.take i)).2

/-- A block folding `neg_i32` of the constant 1 (refutes C4's masking). -/
def negFoldBlock : Block :=
  ⟨"entry", [],
   [.const (some ⟨"%a", some "i32"⟩) (some "i32") (some (.i 1)),
    .unary "neg_i32" (some ⟨"%b", some "i32"⟩) "%a"],
   .ret ["%b"]⟩

/-- A block with a division by an exact float zero. -/
def divZeroBlock : Block :=
  ⟨"entry", [],
   [.const (some ⟨"%z", some "f64"⟩) (some "f64") (some (.f 0)),
    .const (some ⟨"%x", some "f64"⟩) (some "f64") (some (.f 1)),
    .binary "div_f64" (some ⟨"%q", some "f64"⟩) "%x" "%z"],
   .ret ["%q"]⟩

/-- The function wrapping `divZeroBlock`. -/
def divZeroFn : Func := ⟨"f", [], [some "f64"], [divZeroBlock], true, none, true⟩

/-- The module wrapping `divZeroFn`. -/
def divZeroM : OIR :=
  ⟨"0.1.0", "t", ⟨"M", [divZeroFn], []⟩, ⟨[], [], []⟩, ⟨false, 2⟩⟩

/-- The `(key, result-id)` pair of a registrable `Const`, when both exist. -/
def cse_key_rid (i : Inst) : Option ((Option String × Option Lit) × String) :=
  match cse_const_key i, result_id_cse i with
  | some k, some r => some (k, r)
  | _, _ => none

/-- Two instructions whose registrable keys (if any) differ. -/
def goodPair (a b : Inst) : Prop :=
  ∀ ka ra kb rb, cse_key_rid a = some (ka, ra) → cse_key_rid b = some (kb, rb) →
    ka ≠ kb

/-- All operand uses of a list of instructions. -/
def usesList (l : List Inst) : List String :=
  (l.map value_uses_in_inst).flatten

/-- The result ids bound by a block's instructions (as dce.py reads them). -/
def bound_ids (bb : Block) : List String :=
  bb.insts.filterMap result_id_dce

/-- The `%`-references to a function's parameters. -/
def param_refs (fn : Func) : List String :=
  fn.params.map (fun p => "%" ++ p.name)

/-- The dead-chain example: `%a` is used only by the dead `not_i32` binding
`%b`, and `%b` is used nowhere. -/
def deadChainBlock : Block :=
  ⟨"entry", [],
   [.const (some ⟨"%a", some "i32"⟩) (some "i32") (some (.i 1)),
    .unary "not_i32" (some ⟨"%b", some "i32"⟩) "%a"],
   .ret []⟩

/-- The function wrapping `deadChainBlock` (exported so that phase A keeps
it). -/
def deadChainFn : Func := ⟨"f", [], [], [deadChainBlock], true, none, true⟩

/-- The module wrapping `deadChainFn`. -/
def deadChainM : OIR :=
  ⟨"0.1.0", "t", ⟨"M", [deadChainFn], []⟩, ⟨[], [], []⟩, ⟨false, 2⟩⟩

/-- The T-IR document of the identity definition
`Definition{name:"id", term:Lambda{param:x, body:Var{x}}}`. -/
def tir7 : TIR :=
  ⟨"0.1.0", ⟨some "M",
    [⟨"Definition", some "id", some (.lam (some "x") (.var (some "x"))), none⟩]⟩⟩

/-- A function with a `unit`-typed parameter. -/
def unitParamFn : Func :=
  ⟨"g", [⟨"x", some "unit"⟩], [], [⟨"entry", [], [], .ret []⟩], false, none, true⟩

/-- A module holding `unitParamFn`. -/
def unitParamM : OIR :=
  ⟨"0.1.0", "t", ⟨"M", [unitParamFn], []⟩, ⟨[], [], []⟩, ⟨false, 2⟩⟩

/-- A function with a `unit`-typed result. -/
def unitResFn : Func :=
  ⟨"h", [], [some "unit"], [⟨"entry", [], [], .ret []⟩], false, none, true⟩

/-- A module holding `unitResFn`. -/
def unitResM : OIR :=
  ⟨"0.1.0", "t", ⟨"M", [unitResFn], []⟩, ⟨[], [], []⟩, ⟨false, 2⟩⟩

/-- The character class the spec promises for sanitized symbols:
`[A-Za-z0-9_./]` (this definition follows the spec text, for comparison
withch the code's `sanitize_sym`). -/
def spec_sym_class (c : Char) : Bool :=
  (65 ≤ c.toNat && c.toNat ≤ 90) || (97 ≤ c.toNat && c.toNat ≤ 122) ||
  (48 ≤ c.toNat && c.toNat ≤ 57) || c == '_' || c == '.' || c == '/'

/-- Reachability as the spec words it (for comparison with the code's
closure): a function name is reachable when it names an exported function,
is listed in a table's element list, or is called by some function whose
name is reachable. -/
inductive ReachableName (m : Module) : String → Prop where
  | exported (n : String) (fn : Func) : fn ∈ m.functions → fn.name = n →
      fn.exported = true → ReachableName m n
  | table (n : String) : n ∈ collect_table_refs m → ReachableName m n
  | call (n c : String) (fn : Func) : ReachableName m n → fn ∈ m.functions →
      fn.name = n → c ∈ collect_callees fn → ReachableName m c

/-- The functions of the three-function module with a shadowed exported
name: an exported `n` calling `g`, an internal `n` shadowing it in the
name table, and the internal callee `g`. -/
def dupAFn : Func :=
  ⟨"n", [], [], [⟨"entry", [], [.call "g" [] []], .ret []⟩], true, none, true⟩

/-- The internal, non-exported shadow of `dupAFn`'s name. -/
def dupBFn : Func :=
  ⟨"n", [], [], [⟨"entry", [], [], .ret []⟩], false, none, true⟩

/-- The internal, non-exported callee of `dupAFn`. -/
def dupGFn : Func :=
  ⟨"g", [], [], [⟨"entry", [], [], .ret []⟩], false, none, true⟩

/-- The module with the duplicate function name. -/
def dupM : Module := ⟨"M", [dupAFn, dupBFn, dupGFn], []⟩

/-- The functions of the witness module for C5: an exported `main` calling
`helper`, the internal `helper`, and the unreachable internal `deadfn`. -/
def mainFn5 : Func :=
  ⟨"main", [], [], [⟨"entry", [], [.call "helper" [] []], .ret []⟩], true, none, true⟩

/-- The internal callee of `mainFn5`. -/
def helperFn5 : Func :=
  ⟨"helper", [], [], [⟨"entry", [], [], .ret []⟩], false, none, true⟩

/-- The unreachable internal function of the witness module. -/
def deadFn5 : Func :=
  ⟨"deadfn", [], [], [⟨"entry", [], [], .ret []⟩], false, none, true⟩

/-- The witness module for C5. -/
def m5 : Module := ⟨"M", [mainFn5, helperFn5, deadFn5], []⟩

/-- Unfolding equation for `fold_insts` on a cons cell. -/
theorem fold_insts_cons (env : CEnv) (i : Inst) (t : List Inst) :
    fold_insts env (i :: t) =
      ((fold_step env i).1 :: (fold_insts (fold_step env i).2 t).1,
       (fold_insts (fold_step env i).2 t).2) := by
  rcases h1 : fold_step env i with ⟨a, b⟩
  simp only [fold_insts, h1]

/-- `fold_step` keeps the instruction unchanged unless it is a fold
candidate, in which case it replaces it by a `Const` with the same bind and
registers the folded value under the bound result id. -/
theorem fold_step_cases (env : CEnv) (inst : Inst) :
    (fold_step env inst).1 = inst ∨
      (fold_candidate env inst ∧
        ∃ kty res rid, result_id_cf (bindOf inst) = some rid ∧
          fold_step env inst =
            (.const (bindOf inst) (some kty) (some res),
             envInsert env rid (kty, some res))) := by
  cases inst with
  | unary op bind arg =>
    cases hr : result_id_cf bind with
    | none => left; simp [fold_step, hr]
    | some rid =>
      cases hk : bind_type_kind bind with
      | none => left; simp [fold_step, hr, hk]
      | some kty =>
        by_cases hcond : kty ≠ "" ∧ strStarts arg '%' = true
        · cases hl : envLookup env arg with
          | none => left; simp [fold_step, hr, hk, if_pos hcond, hl]
          | some p =>
            cases p with
            | mk argk aval =>
              cases he : eval_unary op kty aval with
              | none => left; simp [fold_step, hr, hk, if_pos hcond, hl, he]
              | some res =>
                right
                refine ⟨⟨by simp [hr], ⟨kty, hk, hcond.1⟩, hcond.2, by simp [hl]⟩,
                        kty, res, rid, by simpa [bindOf] using hr, ?_⟩
                simp [fold_step, hr, hk, if_pos hcond, hl, he, bindOf]
        · left; simp [fold_step, hr, hk, if_neg hcond]
  | binary op bind lhs rhs =>
    cases hr : result_id_cf bind with
    | none => left; simp [fold_step, hr]
    | some rid =>
      cases hk : bind_type_kind bind with
      | none => left; simp [fold_step, hr, hk]
      | some kty =>
        by_cases hcond : kty ≠ "" ∧ strStarts lhs '%' = true ∧ strStarts rhs '%' = true
        · cases hl : envLookup env lhs with
          | none => left; simp [fold_step, hr, hk, if_pos hcond, hl]
          | some p =>
            cases hl2 : envLookup env rhs with
            | none => left; cases p; simp [fold_step, hr, hk, if_pos hcond, hl, hl2]
            | some p2 =>
              cases p with
              | mk _ aval =>
                cases p2 with
                | mk _ bval =>
                  cases he : eval_binary op kty aval bval with
                  | none => left; simp [fold_step, hr, hk, if_pos hcond, hl, hl2, he]
                  | some res =>
                    right
                    refine ⟨⟨by simp [hr], ⟨kty, hk, hcond.1⟩, hcond.2.1, hcond.2.2,
                              by simp [hl], by simp [hl2]⟩,
                            kty, res, rid, by simpa [bindOf] using hr, ?_⟩
                    simp [fold_step, hr, hk, if_pos hcond, hl, hl2, he, bindOf]
        · left; simp [fold_step, hr, hk, if_neg hcond]
  | const bind vty val =>
    left
    simp only [fold_step]
    repeat' split
    all_goals rfl
  | select b c t f => left; rfl
  | load b base => left; rfl
  | store base v => left; rfl
  | heapNew b fs => left; rfl
  | heapGet b obj => left; rfl
  | heapSet obj v => left; rfl
  | tagOf b obj => left; rfl
  | lenOf b obj => left; rfl
  | guard c => left; rfl
  | call c a bs => left; rfl

/-- `fold_step` preserves the bind of the instruction it processes. -/
theorem fold_step_bind (env : CEnv) (inst : Inst) :
    bindOf (fold_step env inst).1 = bindOf inst := by
  rcases fold_step_cases env inst with h | ⟨_, kty, res, rid, hrid, h⟩
  · rw [h]
  · rw [h]; rfl

/-- The fold loop never adds or removes instructions. -/
theorem fold_insts_length (env : CEnv) (insts : List Inst) :
    (fold_insts env insts).1.length = insts.length := by
  induction insts generalizing env with
  | nil => rfl
  | cons i t ih => rw [fold_insts_cons]; simp [ih]

/-- Pointwise shape of the fold loop's output: each position keeps its bind
and is either the original instruction or a `Const` replacing a fold
candidate. -/
theorem fold_insts_get (env : CEnv) (insts : List Inst) (i : Nat) (inst : Inst)
    (h : insts[i]? = some inst) :
    ∃ inst', (fold_insts env insts).1[i]? = some inst' ∧
      bindOf inst' = bindOf inst ∧
      (inst' = inst ∨
        (fold_candidate (fold_insts env (insts.take i)).2 inst ∧
          ∃ kty res, inst' = .const (bindOf inst) (some kty) (some res))) := by
  induction insts generalizing env i with
  | nil => simp at h
  | cons hd t ih =>
    rw [fold_insts_cons]
    cases i with
    | zero =>
      simp only [List.getElem?_cons_zero, Option.some.injEq] at h
      subst h
      refine ⟨(fold_step env hd).1, by simp, fold_step_bind env hd, ?_⟩
      rcases fold_step_cases env hd with hc | ⟨hcand, kty, res, rid, hrid, hpair⟩
      · exact Or.inl hc
      · right
        refine ⟨by simpa [fold_insts] using hcand, kty, res, ?_⟩
        rw [hpair]
    | succ n =>
      simp only [List.getElem?_cons_succ] at h
      obtain ⟨inst', h1, h2, h3⟩ := ih (fold_step env hd).2 n h
      refine ⟨inst', by simpa using h1, h2, ?_⟩
      rcases h3 with h3 | ⟨hcand, rest⟩
      · exact Or.inl h3
      · right
        refine ⟨?_, rest⟩
        rw [List.take_succ_cons, fold_insts_cons]
        exact hcand

/-- Reprocessing the output of `fold_step` in the same environment changes
nothing: a kept instruction is kept again, and a folded `Const` registers the
same environment entry the fold did. -/
theorem fold_step_of_folded (env : CEnv) (inst : Inst) :
    fold_step env (fold_step env inst).1 = fold_step env inst := by
  rcases fold_step_cases env inst with h | ⟨_, kty, res, rid, hrid, hpair⟩
  · rw [h]
  · rw [hpair]
    simp only [fold_step]
    rw [show result_id_cf (bindOf inst) = some rid from hrid]
    simp [const_val, hpair]

/-- The fold loop is idempotent (same starting environment). -/
theorem fold_insts_idem (env : CEnv) (insts : List Inst) :
    fold_insts env (fold_insts env insts).1 = fold_insts env insts := by
  induction insts generalizing env with
  | nil => rfl
  | cons hd t ih =>
    simp only [fold_insts_cons, fold_step_of_folded, ih]

/-- `_fold_block` is idempotent. -/
theorem fold_block_idem (bb : Block) : fold_block (fold_block bb) = fold_block bb := by
  simp [fold_block, fold_insts_idem]

/-- `run_const_fold` is idempotent. -/
theorem run_const_fold_idem (o : OIR) :
    run_const_fold (run_const_fold o) = run_const_fold o := by
  simp [run_const_fold, Function.comp, fold_block_idem]

/-- Iterating `run_const_fold` beyond the first pass changes nothing. -/
theorem run_const_fold_iterate (m : Nat) (o : OIR) :
    run_const_fold^[m] (run_const_fold o) = run_const_fold o := by
  induction m with
  | zero => rfl
  | succ k ih => rw [Function.iterate_succ_apply, run_const_fold_idem, ih]

/-- Computation rules for `_eval_unary` at each supported integer op. -/
theorem eval_unary_neg32 (a : Option Lit) :
    eval_unary "neg_i32" "i32" a = (pyInt a).map (fun n => Lit.i (-n)) := by
  simp [eval_unary]

/-- `_eval_unary` at `neg_i64`. -/
theorem eval_unary_neg64 (a : Option Lit) :
    eval_unary "neg_i64" "i64" a = (pyInt a).map (fun n => Lit.i (-n)) := by
  simp [eval_unary]

/-- `_eval_unary` at `not_i32`. -/
theorem eval_unary_not32 (a : Option Lit) :
    eval_unary "not_i32" "i32" a =
      (pyInt a).map (fun n => Lit.i ((-n - 1) % pow32)) := by
  simp [eval_unary]

/-- `_eval_unary` at `not_i64`. -/
theorem eval_unary_not64 (a : Option Lit) :
    eval_unary "not_i64" "i64" a =
      (pyInt a).map (fun n => Lit.i ((-n - 1) % pow64)) := by
  simp [eval_unary]

/-- `_eval_unary` yields nothing when the bind type does not match the op. -/
theorem eval_unary_neg32_ne (kty : String) (h : kty ≠ "i32") (a : Option Lit) :
    eval_unary "neg_i32" kty a = none := by
  simp [eval_unary, h]

/-- Mismatched-type rule for `neg_i64`. -/
theorem eval_unary_neg64_ne (kty : String) (h : kty ≠ "i64") (a : Option Lit) :
    eval_unary "neg_i64" kty a = none := by
  simp [eval_unary, h]

/-- Mismatched-type rule for `not_i32`. -/
theorem eval_unary_not32_ne (kty : String) (h : kty ≠ "i32") (a : Option Lit) :
    eval_unary "not_i32" kty a = none := by
  simp [eval_unary, h]

/-- Mismatched-type rule for `not_i64`. -/
theorem eval_unary_not64_ne (kty : String) (h : kty ≠ "i64") (a : Option Lit) :
    eval_unary "not_i64" kty a = none := by
  simp [eval_unary, h]

/-- `_eval_binary` refuses to evaluate a float division whose divisor is
exactly zero, whatever the bind type. -/
theorem eval_binary_div_zero (op kty : String) (a bval : Option Lit)
    (hop : op = "div_f32" ∨ op = "div_f64") (hz : pyFloat bval = some 0) :
    eval_binary op kty a bval = none := by
  rcases hop with rfl | rfl <;>
    (by_cases h1 : kty = "i32" ∨ kty = "i64"
     · simp only [eval_binary, if_pos h1]
       cases pyInt a <;> cases pyInt bval <;> simp
     · by_cases h2 : kty = "f32" ∨ kty = "f64"
       · simp only [eval_binary, if_neg h1, if_pos h2]
         rcases h2 with rfl | rfl <;> cases hfa : pyFloat a <;> simp [hz]
       · simp only [eval_binary, if_neg h1, if_neg h2])

/-- `fold_step` keeps a float division whose divisor is known to be exactly
zero, and leaves the environment unchanged. -/
theorem fold_step_div_zero (env : CEnv) (op : String) (bind : Option Bind)
    (lhs rhs : String) (hop : op = "div_f32" ∨ op = "div_f64")
    (k : String) (bval : Option Lit)
    (hl : envLookup env rhs = some (k, bval)) (hz : pyFloat bval = some 0) :
    fold_step env (.binary op bind lhs rhs) = (.binary op bind lhs rhs, env) := by
  simp only [fold_step]
  cases hr : result_id_cf bind with
  | none => rfl
  | some rid =>
    cases hk : bind_type_kind bind with
    | none => rfl
    | some kty =>
      by_cases hcond : kty ≠ "" ∧ strStarts lhs '%' = true ∧ strStarts rhs '%' = true
      · cases hll : envLookup env lhs with
        | none => simp [if_pos hcond, hll]
        | some p =>
          cases p with
          | mk _ aval =>
            simp [if_pos hcond, hll, hl, eval_binary_div_zero op kty aval bval hop hz]
      · simp [if_neg hcond]

/-- Positional version: the fold loop keeps a zero-divisor float division at
its index. -/
theorem fold_insts_keep_div (env : CEnv) (insts : List Inst) :
    ∀ (i : Nat) (op : String) (bind : Option Bind) (lhs rhs : String),
      insts[i]? = some (.binary op bind lhs rhs) →
      (op = "div_f32" ∨ op = "div_f64") →
      ∀ (k : String) (bval : Option Lit),
        envLookup (fold_insts env (insts.take i)).2 rhs = some (k, bval) →
        pyFloat bval = some 0 →
        (fold_insts env insts).1[i]? = some (.binary op bind lhs rhs) := by
  induction insts generalizing env with
  | nil => intro i op bind lhs rhs h; simp at h
  | cons hd t ih =>
    intro i op bind lhs rhs h hop k bval hl hz
    rw [fold_insts_cons]
    cases i with
    | zero =>
      simp only [List.getElem?_cons_zero, Option.some.injEq] at h
      subst h
      have hl0 : envLookup env rhs = some (k, bval) := by
        simpa [fold_insts] using hl
      have hstep := fold_step_div_zero env op bind lhs rhs hop k bval hl0 hz
      simp [hstep]
    | succ n =>
      simp only [List.getElem?_cons_succ] at h
      have hl' : envLookup (fold_insts (fold_step env hd).2 (t.take n)).2 rhs
          = some (k, bval) := by
        rw [List.take_succ_cons, fold_insts_cons] at hl
        exact hl
      simpa using ih (fold_step env hd).2 n op bind lhs rhs h hop k bval hl' hz

/-! ## Concrete example inputs used by counterexamples and witnesses -/

/-! ## Claim C4 -/

/-- C4 counterexample: constant folding `neg_i32` on the known constant 1
replaces it by `Const(-1)`: the literal is the raw negation, not
`(-1) & 0xFFFFFFFF = 4294967295`, and it lies outside `[0, 2^32)`. -/
theorem claim_C4_counterexample :
    (fold_block negFoldBlock).insts =
      [.const (some ⟨"%a", some "i32"⟩) (some "i32") (some (.i 1)),
       .const (some ⟨"%b", some "i32"⟩) (some "i32") (some (.i (-1)))] ∧
    ¬ (0 ≤ (-1 : Int)) ∧ (-1 : Int) ≠ (-(1 : Int)) % pow32 := by
  refine ⟨rfl, by decide, by decide⟩

/-- C4 (amended): when constant folding replaces a `Unary` whose op is one of
`neg_i32`, `neg_i64`, `not_i32`, `not_i64` and whose argument is a known
constant with integer value `n`, the replacing `Const`'s literal is the raw
(unwrapped, possibly negative) negation `-n` for the `neg` ops, while only
`not_i32`/`not_i64` wrap into the unsigned 32/64-bit range. -/
theorem claim_C4 (env : CEnv) (op : String) (bind : Option Bind) (arg : String)
    (hop : op = "neg_i32" ∨ op = "neg_i64" ∨ op = "not_i32" ∨ op = "not_i64")
    (hne : (fold_step env (.unary op bind arg)).1 ≠ .unary op bind arg) :
    ∃ kty argk aval n, bind_type_kind bind = some kty ∧
      envLookup env arg = some (argk, aval) ∧ pyInt aval = some n ∧
      (((op = "neg_i32" ∨ op = "neg_i64") →
         (fold_step env (.unary op bind arg)).1 = .const bind (some kty) (some (.i (-n)))) ∧
       (op = "not_i32" →
         (fold_step env (.unary op bind arg)).1 =
           .const bind (some kty) (some (.i ((-n - 1) % pow32))) ∧
         0 ≤ (-n - 1) % pow32 ∧ (-n - 1) % pow32 < pow32) ∧
       (op = "not_i64" →
         (fold_step env (.unary op bind arg)).1 =
           .const bind (some kty) (some (.i ((-n - 1) % pow64))) ∧
         0 ≤ (-n - 1) % pow64 ∧ (-n - 1) % pow64 < pow64)) := by
  cases hr : result_id_cf bind with
  | none => exact absurd (by simp [fold_step, hr]) hne
  | some rid =>
    cases hk : bind_type_kind bind with
    | none => exact absurd (by simp [fold_step, hr, hk]) hne
    | some kty =>
      by_cases hcond : kty ≠ "" ∧ strStarts arg '%' = true
      · cases hl : envLookup env arg with
        | none => exact absurd (by simp [fold_step, hr, hk, if_pos hcond, hl]) hne
        | some p =>
          cases p with
          | mk argk aval =>
            cases he : eval_unary op kty aval with
            | none => exact absurd (by simp [fold_step, hr, hk, if_pos hcond, hl, he]) hne
            | some res =>
              have hfold : (fold_step env (.unary op bind arg)).1 =
                  .const bind (some kty) (some res) := by
                simp [fold_step, hr, hk, if_pos hcond, hl, he]
              have hres : ∃ n, pyInt aval = some n ∧
                  (((op = "neg_i32" ∨ op = "neg_i64") → res = .i (-n)) ∧
                   (op = "not_i32" → res = .i ((-n - 1) % pow32)) ∧
                   (op = "not_i64" → res = .i ((-n - 1) % pow64))) := by
                rcases hop with rfl | rfl | rfl | rfl
                · by_cases hk32 : kty = "i32"
                  · subst hk32
                    rw [eval_unary_neg32] at he
                    cases hpi : pyInt aval with
                    | none => rw [hpi] at he; simp at he
                    | some n =>
                      rw [hpi] at he
                      simp only [Option.map_some', Option.some.injEq] at he
                      exact ⟨n, rfl, fun _ => by rw [← he], by simp, by simp⟩
                  · rw [eval_unary_neg32_ne kty hk32] at he; simp at he
                · by_cases hk64 : kty = "i64"
                  · subst hk64
                    rw [eval_unary_neg64] at he
                    cases hpi : pyInt aval with
                    | none => rw [hpi] at he; simp at he
                    | some n =>
                      rw [hpi] at he
                      simp only [Option.map_some', Option.some.injEq] at he
                      exact ⟨n, rfl, fun _ => by rw [← he], by simp, by simp⟩
                  · rw [eval_unary_neg64_ne kty hk64] at he; simp at he
                · by_cases hk32 : kty = "i32"
                  · subst hk32
                    rw [eval_unary_not32] at he
                    cases hpi : pyInt aval with
                    | none => rw [hpi] at he; simp at he
                    | some n =>
                      rw [hpi] at he
                      simp only [Option.map_some', Option.some.injEq] at he
                      exact ⟨n, rfl, by simp, fun _ => by rw [← he], by simp⟩
                  · rw [eval_unary_not32_ne kty hk32] at he; simp at he
                · by_cases hk64 : kty = "i64"
                  · subst hk64
                    rw [eval_unary_not64] at he
                    cases hpi : pyInt aval with
                    | none => rw [hpi] at he; simp at he
                    | some n =>
                      rw [hpi] at he
                      simp only [Option.map_some', Option.some.injEq] at he
                      exact ⟨n, rfl, by simp, by simp, fun _ => by rw [← he]⟩
                  · rw [eval_unary_not64_ne kty hk64] at he; simp at he
              obtain ⟨n, hpi, hneg, hnot32, hnot64⟩ := hres
              refine ⟨kty, argk, aval, n, rfl, rfl, hpi, ?_, ?_, ?_⟩
              · intro hcase
                rw [hfold, hneg hcase]
              · intro hcase
                refine ⟨by rw [hfold, hnot32 hcase], ?_, ?_⟩
                · exact Int.emod_nonneg _ (by decide)
                · exact Int.emod_lt_of_pos _ (by decide)
              · intro hcase
                refine ⟨by rw [hfold, hnot64 hcase], ?_, ?_⟩
                · exact Int.emod_nonneg _ (by decide)
                · exact Int.emod_lt_of_pos _ (by decide)
      · exact absurd (by simp [fold_step, hr, hk, if_neg hcond]) hne

/-- Witness for C4 at a concrete input: `not_i32` on the known constant 1
folds to `(-1 - 1) % 2^32 = 4294967294`, in range. -/
theorem claim_C4_witness :
    ∃ kty argk aval n,
      bind_type_kind (some ⟨"%b", some "i32"⟩) = some kty ∧
      envLookup [("%a", ("i32", some (.i 1)))] "%a" = some (argk, aval) ∧
      pyInt aval = some n ∧
      ((("not_i32" = "neg_i32" ∨ ("not_i32" : String) = "neg_i64") →
         (fold_step [("%a", ("i32", some (.i 1)))]
           (.unary "not_i32" (some ⟨"%b", some "i32"⟩) "%a")).1 =
           .const (some ⟨"%b", some "i32"⟩) (some kty) (some (.i (-n)))) ∧
       (("not_i32" : String) = "not_i32" →
         (fold_step [("%a", ("i32", some (.i 1)))]
           (.unary "not_i32" (some ⟨"%b", some "i32"⟩) "%a")).1 =
           .const (some ⟨"%b", some "i32"⟩) (some kty) (some (.i ((-n - 1) % pow32))) ∧
         0 ≤ (-n - 1) % pow32 ∧ (-n - 1) % pow32 < pow32) ∧
       (("not_i32" : String) = "not_i64" →
         (fold_step [("%a", ("i32", some (.i 1)))]
           (.unary "not_i32" (some ⟨"%b", some "i32"⟩) "%a")).1 =
           .const (some ⟨"%b", some "i32"⟩) (some kty) (some (.i ((-n - 1) % pow64))) ∧
         0 ≤ (-n - 1) % pow64 ∧ (-n - 1) % pow64 < pow64)) :=
  claim_C4 [("%a", ("i32", some (.i 1)))] "not_i32" (some ⟨"%b", some "i32"⟩) "%a"
    (Or.inr (Or.inr (Or.inl rfl))) (by decide)

/-! ## Claim C10 -/

/-- C10: `run_const_fold` is a pure frame on everything except foldable
instructions: the document fields, certificates, module name and tables are
untouched; every function keeps its name/params/results/export/linkage/attrs
and block count; every block keeps its label, params, terminator and
instruction count; every instruction keeps its bind, and an instruction that
is not a `Unary`/`Binary` with all-constant known operands (a fold candidate
under the environment reaching it) is exactly the original. -/
theorem claim_C10 (o : OIR) :
    (run_const_fold o).version = o.version ∧
    (run_const_fold o).tool = o.tool ∧
    (run_const_fold o).certificates = o.certificates ∧
    (run_const_fold o).metadata = o.metadata ∧
    (run_const_fold o).module.name = o.module.name ∧
    (run_const_fold o).module.tables = o.module.tables ∧
    (run_const_fold o).module.functions.length = o.module.functions.length ∧
    ∀ (fi : Nat) (fn : Func), o.module.functions[fi]? = some fn →
      ∃ fn', (run_const_fold o).module.functions[fi]? = some fn' ∧
        fn'.name = fn.name ∧ fn'.params = fn.params ∧ fn'.results = fn.results ∧
        fn'.exported = fn.exported ∧ fn'.linkage = fn.linkage ∧
        fn'.attrsPure = fn.attrsPure ∧
        fn'.blocks.length = fn.blocks.length ∧
        ∀ (bi : Nat) (bb : Block), fn.blocks[bi]? = some bb →
          ∃ bb', fn'.blocks[bi]? = some bb' ∧
            bb'.label = bb.label ∧ bb'.params = bb.params ∧
            bb'.term = bb.term ∧
            bb'.insts.length = bb.insts.length ∧
            ∀ (ii : Nat) (inst : Inst), bb.insts[ii]? = some inst →
              ∃ inst', bb'.insts[ii]? = some inst' ∧
                bindOf inst' = bindOf inst ∧
                (inst' = inst ∨
                  (fold_candidate (fold_env_at bb.insts ii) inst ∧
                    ∃ kty res, inst' = .const (bindOf inst) (some kty) (some res))) := by
  refine ⟨rfl, rfl, rfl, rfl, rfl, rfl, by simp [run_const_fold], ?_⟩
  intro fi fn hfn
  refine ⟨{ fn with blocks := fn.blocks.map fold_block },
          by simp [run_const_fold, List.getElem?_map, hfn], rfl, rfl, rfl, rfl, rfl, rfl,
          by simp, ?_⟩
  intro bi bb hbb
  refine ⟨fold_block bb, by simp [List.getElem?_map, hbb], rfl, rfl, rfl,
          fold_insts_length [] bb.insts, ?_⟩
  intro ii inst hinst
  exact fold_insts_get [] bb.insts ii inst hinst

/-- Witness for C10's per-function clause at a concrete module. -/
theorem claim_C10_witness :
    ∃ fn', (run_const_fold divZeroM).module.functions[0]? = some fn' ∧
      fn'.name = divZeroFn.name ∧ fn'.params = divZeroFn.params ∧
      fn'.results = divZeroFn.results ∧
      fn'.exported = divZeroFn.exported ∧ fn'.linkage = divZeroFn.linkage ∧
      fn'.attrsPure = divZeroFn.attrsPure ∧
      fn'.blocks.length = divZeroFn.blocks.length ∧
      ∀ (bi : Nat) (bb : Block), divZeroFn.blocks[bi]? = some bb →
        ∃ bb', fn'.blocks[bi]? = some bb' ∧
          bb'.label = bb.label ∧ bb'.params = bb.params ∧
          bb'.term = bb.term ∧
          bb'.insts.length = bb.insts.length ∧
          ∀ (ii : Nat) (inst : Inst), bb.insts[ii]? = some inst →
            ∃ inst', bb'.insts[ii]? = some inst' ∧
              bindOf inst' = bindOf inst ∧
              (inst' = inst ∨
                (fold_candidate (fold_env_at bb.insts ii) inst ∧
                  ∃ kty res, inst' = .const (bindOf inst) (some kty) (some res))) :=
  (claim_C10 divZeroM).2.2.2.2.2.2.2 0 divZeroFn rfl

/-! ## Claim C6 -/

/-- C6: a `Binary` whose op is `div_f32`/`div_f64` and whose divisor operand
is a constant known (in the environment reaching it) to be exactly zero is
never replaced by a `Const`: after any number of `run_const_fold` passes it
is still the same `Binary` instruction at its position in its block. -/
theorem claim_C6 (o : OIR) (n fi bi ii : Nat) (fn : Func) (bb : Block)
    (op : String) (bind : Option Bind) (lhs rhs : String)
    (k : String) (bval : Option Lit)
    (hfn : o.module.functions[fi]? = some fn)
    (hbb : fn.blocks[bi]? = some bb)
    (hinst : bb.insts[ii]? = some (.binary op bind lhs rhs))
    (hop : op = "div_f32" ∨ op = "div_f64")
    (hknown : envLookup (fold_env_at bb.insts ii) rhs = some (k, bval))
    (hz : pyFloat bval = some 0) :
    ∃ fn' bb', (run_const_fold^[n] o).module.functions[fi]? = some fn' ∧
      fn'.blocks[bi]? = some bb' ∧
      bb'.insts[ii]? = some (.binary op bind lhs rhs) := by
  cases n with
  | zero => exact ⟨fn, bb, hfn, hbb, hinst⟩
  | succ m =>
    rw [Function.iterate_succ_apply, run_const_fold_iterate]
    refine ⟨{ fn with blocks := fn.blocks.map fold_block }, fold_block bb,
            by simp [run_const_fold, List.getElem?_map, hfn],
            by simp [List.getElem?_map, hbb], ?_⟩
    exact fold_insts_keep_div [] bb.insts ii op bind lhs rhs hinst hop k bval hknown hz

/-- Witness for C6 at a concrete module: two passes leave the zero-divisor
`div_f64` in place. -/
theorem claim_C6_witness :
    ∃ fn' bb', (run_const_fold^[2] divZeroM).module.functions[0]? = some fn' ∧
      fn'.blocks[0]? = some bb' ∧
      bb'.insts[2]? = some (.binary "div_f64" (some ⟨"%q", some "f64"⟩) "%x" "%z") :=
  claim_C6 divZeroM 2 0 0 2 divZeroFn divZeroBlock "div_f64"
    (some ⟨"%q", some "f64"⟩) "%x" "%z" "f64" (some (.f 0))
    rfl rfl rfl (Or.inr rfl) (by decide) (by decide)

/-! ## CSE idempotence lemmas (claim C3) -/

/-- Rewriting with the empty substitution map is the identity on values. -/
theorem rewrite_value_nil (v : String) : rewrite_value [] v = v := by
  unfold rewrite_value
  split <;> rfl

/-- Function form of `rewrite_value_nil`. -/
theorem rewrite_value_nil_fun : rewrite_value [] = id :=
  funext rewrite_value_nil

/-- Rewriting with the empty substitution map is the identity on
instructions. -/
theorem rewrite_inst_nil (i : Inst) : rewrite_inst_operands [] i = i := by
  cases i <;> simp [rewrite_inst_operands, rewrite_value_nil, rewrite_value_nil_fun]

/-- Rewriting with the empty substitution map is the identity on
terminators. -/
theorem rewrite_term_nil (t : Term) : rewrite_term [] t = t := by
  cases t <;> simp [rewrite_term, rewrite_value_nil, rewrite_value_nil_fun]

/-- Association-list lookup is stable under a fresh-key insertion. -/
theorem alookup_cons_of_ne {κ α : Type} [DecidableEq κ]
    (l : List (κ × α)) (k k' : κ) (v : α) (h : k' ≠ k) :
    alookup ((k', v) :: l) k = alookup l k := by
  simp [alookup, h]

/-- Unfolding of `cse_insts` when the rewritten head is a duplicate `Const`. -/
theorem cse_insts_cons_drop (fnName : String) (cm : ConstMap) (rm : ReplMap)
    (inst : Inst) (rest : List Inst)
    (key : Option String × Option Lit) (rid can : String)
    (hk : cse_const_key (rewrite_inst_operands rm inst) = some key)
    (hr : result_id_cse (rewrite_inst_operands rm inst) = some rid)
    (hc : alookup cm key = some can) :
    cse_insts fnName cm rm (inst :: rest) =
      ((cse_insts fnName cm ((rid, can) :: rm) rest).1,
       (cse_insts fnName cm ((rid, can) :: rm) rest).2.1,
       (cse_insts fnName cm ((rid, can) :: rm) rest).2.2.1,
       ⟨fnName ++ rid, "binding"⟩ :: (cse_insts fnName cm ((rid, can) :: rm) rest).2.2.2) := by
  rcases he : cse_insts fnName cm ((rid, can) :: rm) rest with ⟨a, b, c, d⟩
  simp [cse_insts, hk, hr, hc, he]

/-- Unfolding of `cse_insts` when the rewritten head is a fresh `Const`. -/
theorem cse_insts_cons_reg (fnName : String) (cm : ConstMap) (rm : ReplMap)
    (inst : Inst) (rest : List Inst)
    (key : Option String × Option Lit) (rid : String)
    (hk : cse_const_key (rewrite_inst_operands rm inst) = some key)
    (hr : result_id_cse (rewrite_inst_operands rm inst) = some rid)
    (hc : alookup cm key = none) :
    cse_insts fnName cm rm (inst :: rest) =
      (rewrite_inst_operands rm inst :: (cse_insts fnName ((key, rid) :: cm) rm rest).1,
       (cse_insts fnName ((key, rid) :: cm) rm rest).2.1,
       (cse_insts fnName ((key, rid) :: cm) rm rest).2.2.1,
       (cse_insts fnName ((key, rid) :: cm) rm rest).2.2.2) := by
  rcases he : cse_insts fnName ((key, rid) :: cm) rm rest with ⟨a, b, c, d⟩
  simp [cse_insts, hk, hr, hc, he]

/-- Unfolding of `cse_insts` when the rewritten head is not a registrable
`Const`. -/
theorem cse_insts_cons_skip (fnName : String) (cm : ConstMap) (rm : ReplMap)
    (inst : Inst) (rest : List Inst)
    (hkr : cse_key_rid (rewrite_inst_operands rm inst) = none) :
    cse_insts fnName cm rm (inst :: rest) =
      (rewrite_inst_operands rm inst :: (cse_insts fnName cm rm rest).1,
       (cse_insts fnName cm rm rest).2.1,
       (cse_insts fnName cm rm rest).2.2.1,
       (cse_insts fnName cm rm rest).2.2.2) := by
  rcases he : cse_insts fnName cm rm rest with ⟨a, b, c, d⟩
  unfold cse_key_rid at hkr
  cases hk : cse_const_key (rewrite_inst_operands rm inst) with
  | none => simp [cse_insts, hk, he]
  | some key =>
    cases hr : result_id_cse (rewrite_inst_operands rm inst) with
    | none => simp [cse_insts, hk, hr, he]
    | some rid => rw [hk, hr] at hkr; simp at hkr

/-- The output of the CSE instruction loop: kept registrable `Const`s have
pairwise-distinct keys, and each of their keys was absent from the incoming
canonical map. -/
theorem cse_insts_out (fnName : String) (insts : List Inst) :
    ∀ (cm : ConstMap) (rm : ReplMap),
      List.Pairwise goodPair (cse_insts fnName cm rm insts).1 ∧
      ∀ i ∈ (cse_insts fnName cm rm insts).1,
        ∀ key rid, cse_key_rid i = some (key, rid) → alookup cm key = none := by
  induction insts with
  | nil => intro cm rm; simp [cse_insts]
  | cons inst rest ih =>
    intro cm rm
    cases hkr : cse_key_rid (rewrite_inst_operands rm inst) with
    | none =>
      rw [cse_insts_cons_skip fnName cm rm inst rest hkr]
      obtain ⟨ihp, ihn⟩ := ih cm rm
      constructor
      · refine List.Pairwise.cons ?_ ihp
        intro b _ ka ra kb rb hka _
        rw [hkr] at hka; exact absurd hka (by simp)
      · intro i hi key rid hk
        rcases List.mem_cons.mp hi with rfl | hi
        · rw [hkr] at hk; exact absurd hk (by simp)
        · exact ihn i hi key rid hk
    | some p =>
      rcases p with ⟨key, rid⟩
      have hk : cse_const_key (rewrite_inst_operands rm inst) = some key := by
        unfold cse_key_rid at hkr
        cases h1 : cse_const_key (rewrite_inst_operands rm inst) with
        | none => rw [h1] at hkr; simp at hkr
        | some k1 =>
          cases h2 : result_id_cse (rewrite_inst_operands rm inst) with
          | none => rw [h1, h2] at hkr; simp at hkr
          | some r1 => rw [h1, h2] at hkr; simp at hkr; simp [hkr.1]
      have hr : result_id_cse (rewrite_inst_operands rm inst) = some rid := by
        unfold cse_key_rid at hkr
        cases h1 : cse_const_key (rewrite_inst_operands rm inst) with
        | none => rw [h1] at hkr; simp at hkr
        | some k1 =>
          cases h2 : result_id_cse (rewrite_inst_operands rm inst) with
          | none => rw [h1, h2] at hkr; simp at hkr
          | some r1 => rw [h1, h2] at hkr; simp at hkr; simp [hkr.2]
      cases hc : alookup cm key with
      | some can =>
        rw [cse_insts_cons_drop fnName cm rm inst rest key rid can hk hr hc]
        exact ih cm ((rid, can) :: rm)
      | none =>
        rw [cse_insts_cons_reg fnName cm rm inst rest key rid hk hr hc]
        obtain ⟨ihp, ihn⟩ := ih ((key, rid) :: cm) rm
        constructor
        · refine List.Pairwise.cons ?_ ihp
          intro b hb ka ra kb rb hka hkb
          have : alookup ((key, rid) :: cm) kb = none := ihn b hb kb rb hkb
          rw [hkr] at hka
          have hka' : ka = key := by simp at hka; exact hka.1.symm
          subst hka'
          intro hEq
          rw [← hEq] at this
          simp [alookup] at this
        · intro i hi k2 r2 h2
          rcases List.mem_cons.mp hi with rfl | hi
          · rw [hkr] at h2
            have : k2 = key := by simp at h2; exact h2.1.symm
            subst this; exact hc
          · have := ihn i hi k2 r2 h2
            by_cases hkk : key = k2
            · subst hkk; simp [alookup] at this
            · rw [alookup_cons_of_ne cm k2 key rid hkk] at this
              exact this

/-- Split a registrable key/rid pair into its two component equations. -/
theorem cse_key_rid_eq (i : Inst) (key : Option String × Option Lit) (rid : String)
    (h : cse_key_rid i = some (key, rid)) :
    cse_const_key i = some key ∧ result_id_cse i = some rid := by
  unfold cse_key_rid at h
  cases h1 : cse_const_key i with
  | none => rw [h1] at h; simp at h
  | some k1 =>
    cases h2 : result_id_cse i with
    | none => rw [h1, h2] at h; simp at h
    | some r1 =>
      rw [h1, h2] at h
      simp only [Option.some.injEq, Prod.mk.injEq] at h
      exact ⟨by rw [h.1], by rw [h.2]⟩

/-- Replaying the CSE loop on a list whose registrable `Const`s have
pairwise-distinct keys, none already canonical, changes nothing: no drops,
no substitutions, no certificates. -/
theorem cse_insts_replay (fnName : String) (insts : List Inst) :
    ∀ (cm : ConstMap),
      List.Pairwise goodPair insts →
      (∀ i ∈ insts, ∀ key rid, cse_key_rid i = some (key, rid) →
        alookup cm key = none) →
      ∃ cmf, cse_insts fnName cm [] insts = (insts, cmf, [], []) := by
  induction insts with
  | nil => intro cm _ _; exact ⟨cm, rfl⟩
  | cons inst rest ih =>
    intro cm hp hn
    have hrw : rewrite_inst_operands ([] : ReplMap) inst = inst := rewrite_inst_nil inst
    cases hkr : cse_key_rid inst with
    | none =>
      obtain ⟨cmf, hrec⟩ := ih cm (List.Pairwise.of_cons hp)
        (fun i hi k r h => hn i (List.mem_cons_of_mem _ hi) k r h)
      refine ⟨cmf, ?_⟩
      rw [cse_insts_cons_skip fnName cm [] inst rest (by rw [hrw]; exact hkr), hrec, hrw]
    | some p =>
      rcases p with ⟨key, rid⟩
      have hcm : alookup cm key = none := hn inst (List.mem_cons_self _ _) key rid hkr
      obtain ⟨hk, hr⟩ := cse_key_rid_eq inst key rid hkr
      have hn' : ∀ i ∈ rest, ∀ k r, cse_key_rid i = some (k, r) →
          alookup ((key, rid) :: cm) k = none := by
        intro i hi k r h
        have h1 : alookup cm k = none := hn i (List.mem_cons_of_mem _ hi) k r h
        have hne : key ≠ k := (List.pairwise_cons.mp hp).1 i hi key rid k r hkr h
        rw [alookup_cons_of_ne cm k key rid hne]
        exact h1
      obtain ⟨cmf, hrec⟩ := ih ((key, rid) :: cm) (List.Pairwise.of_cons hp) hn'
      refine ⟨cmf, ?_⟩
      rw [cse_insts_cons_reg fnName cm [] inst rest key rid (by rw [hrw]; exact hk)
            (by rw [hrw]; exact hr) hcm, hrec, hrw]

/-- Explicit form of `_run_cse_block`'s output. -/
theorem run_cse_block_eq (fn : Func) (bb : Block) :
    run_cse_block fn bb =
      ({ bb with insts := (cse_insts fn.name [] [] bb.insts).1,
                 term := rewrite_term (cse_insts fn.name [] [] bb.insts).2.2.1 bb.term },
       (cse_insts fn.name [] [] bb.insts).2.2.2) := by
  rcases h : cse_insts fn.name [] [] bb.insts with ⟨a, b, c, d⟩
  simp [run_cse_block, h]

/-- Replaying `_run_cse_block` on its own output (under any function name)
changes nothing and emits no certificates. -/
theorem run_cse_block_idem (fn g : Func) (bb : Block) :
    run_cse_block g (run_cse_block fn bb).1 = ((run_cse_block fn bb).1, []) := by
  obtain ⟨hpw, -⟩ := cse_insts_out fn.name bb.insts [] []
  obtain ⟨cmf, hreplay⟩ :=
    cse_insts_replay g.name (cse_insts fn.name [] [] bb.insts).1 [] hpw
      (fun i _ k r _ => rfl)
  rw [run_cse_block_eq fn bb]
  rw [run_cse_block_eq g]
  simp only [hreplay, rewrite_term_nil]

/-- Unfolding equation for the block loop. -/
theorem cse_blocks_cons (fn : Func) (bb : Block) (rest : List Block) :
    cse_blocks fn (bb :: rest) =
      ((run_cse_block fn bb).1 :: (cse_blocks fn rest).1,
       (run_cse_block fn bb).2 ++ (cse_blocks fn rest).2) := by
  rcases h1 : run_cse_block fn bb with ⟨a, b⟩
  rcases h2 : cse_blocks fn rest with ⟨c, d⟩
  simp [cse_blocks, h1, h2]

/-- Replaying the block loop on its own output changes nothing. -/
theorem cse_blocks_idem (fn g : Func) (bbs : List Block) :
    cse_blocks g (cse_blocks fn bbs).1 = ((cse_blocks fn bbs).1, []) := by
  induction bbs with
  | nil => rfl
  | cons bb rest ih =>
    rw [cse_blocks_cons fn bb rest]
    simp only
    rw [cse_blocks_cons g]
    rw [run_cse_block_idem fn g bb, ih]
    simp

/-- Unfolding equation for the function loop. -/
theorem cse_fns_cons (fn : Func) (rest : List Func) :
    cse_fns (fn :: rest) =
      ({ fn with blocks := (cse_blocks fn fn.blocks).1 } :: (cse_fns rest).1,
       (cse_blocks fn fn.blocks).2 ++ (cse_fns rest).2) := by
  rcases h1 : cse_blocks fn fn.blocks with ⟨a, b⟩
  rcases h2 : cse_fns rest with ⟨c, d⟩
  simp [cse_fns, h1, h2]

/-- Replaying the function loop on its own output changes nothing. -/
theorem cse_fns_idem (fns : List Func) :
    cse_fns (cse_fns fns).1 = ((cse_fns fns).1, []) := by
  induction fns with
  | nil => rfl
  | cons fn rest ih =>
    rw [cse_fns_cons fn rest]
    simp only
    rw [cse_fns_cons { fn with blocks := (cse_blocks fn fn.blocks).1 }]
    simp only
    rw [cse_blocks_idem fn { fn with blocks := (cse_blocks fn fn.blocks).1 } fn.blocks, ih]
    simp

/-! ## Claim C3 -/

/-- C3: `run_cse` is idempotent: a second run returns the document
unchanged — same functions, blocks, instructions and terminators — and
appends no new certificate entries. -/
theorem claim_C3 (o : OIR) : run_cse (run_cse o) = run_cse o := by
  unfold run_cse
  rcases h1 : cse_fns o.module.functions with ⟨fns1, certs1⟩
  have hidem := cse_fns_idem o.module.functions
  rw [h1] at hidem
  simp only at hidem ⊢
  rw [hidem]
  simp

/-! ## DCE lemmas (claims C1 and C2) -/

/-- Membership in `addUses`. -/
theorem mem_addUses (live : Live) (us : List String) (u : String) :
    u ∈ addUses live us ↔ u ∈ live ∨ u ∈ us := by
  induction us generalizing live with
  | nil => simp [addUses]
  | cons a t ih =>
    show u ∈ addUses (live.insert a) t ↔ _
    rw [ih]
    simp [List.mem_insert_iff]
    tauto

/-- Membership in `usesList`. -/
theorem mem_usesList (l : List Inst) (u : String) :
    u ∈ usesList l ↔ ∃ i ∈ l, u ∈ value_uses_in_inst i := by
  simp [usesList]

/-- Membership after the conservative forward scan of a block. -/
theorem mem_forward_scan (live : Live) (insts : List Inst) (u : String) :
    u ∈ insts.foldl (fun L i => addUses L (value_uses_in_inst i)) live ↔
      u ∈ live ∨ u ∈ usesList insts := by
  induction insts generalizing live with
  | nil => simp [usesList]
  | cons a t ih =>
    show u ∈ t.foldl _ (addUses live (value_uses_in_inst a)) ↔ _
    rw [ih, mem_addUses, mem_usesList]
    simp [usesList]
    tauto

/-- Unfolding of the reverse scan when the head has no result id. -/
theorem dce_rev_cons_keep_none (f : String) (inst : Inst) (rest : List Inst)
    (live : Live) (hr : result_id_dce inst = none) :
    dce_rev f (inst :: rest) live =
      (inst :: (dce_rev f rest live).1,
       addUses (dce_rev f rest live).2.1 (value_uses_in_inst inst),
       (dce_rev f rest live).2.2) := by
  rcases hrec : dce_rev f rest live with ⟨kept, live2, certs⟩
  simp [dce_rev, hrec, hr]

/-- Unfolding of the reverse scan when the head's result is live. -/
theorem dce_rev_cons_live (f : String) (inst : Inst) (rest : List Inst)
    (live : Live) (rid : String) (hr : result_id_dce inst = some rid)
    (hl : rid ∈ (dce_rev f rest live).2.1) :
    dce_rev f (inst :: rest) live =
      (inst :: (dce_rev f rest live).1,
       addUses (dce_rev f rest live).2.1 (value_uses_in_inst inst),
       (dce_rev f rest live).2.2) := by
  rcases hrec : dce_rev f rest live with ⟨kept, live2, certs⟩
  rw [hrec] at hl
  simp only at hl
  simp [dce_rev, hrec, hr, hl]

/-- Unfolding of the reverse scan when the head is a dead pure instruction:
it is dropped with a certificate and its operands are not added to live. -/
theorem dce_rev_cons_drop (f : String) (inst : Inst) (rest : List Inst)
    (live : Live) (rid : String) (hr : result_id_dce inst = some rid)
    (hl : rid ∉ (dce_rev f rest live).2.1) (hp : is_pure inst = true) :
    dce_rev f (inst :: rest) live =
      ((dce_rev f rest live).1, (dce_rev f rest live).2.1,
       (dce_rev f rest live).2.2 ++ [⟨f ++ rid, "binding"⟩]) := by
  rcases hrec : dce_rev f rest live with ⟨kept, live2, certs⟩
  rw [hrec] at hl
  simp only at hl
  simp [dce_rev, hrec, hr, hl, hp]

/-- Unfolding of the reverse scan when the head is dead but effectful. -/
theorem dce_rev_cons_impure (f : String) (inst : Inst) (rest : List Inst)
    (live : Live) (rid : String) (hr : result_id_dce inst = some rid)
    (hl : rid ∉ (dce_rev f rest live).2.1) (hp : is_pure inst = false) :
    dce_rev f (inst :: rest) live =
      (inst :: (dce_rev f rest live).1,
       addUses (dce_rev f rest live).2.1 (value_uses_in_inst inst),
       (dce_rev f rest live).2.2) := by
  rcases hrec : dce_rev f rest live with ⟨kept, live2, certs⟩
  rw [hrec] at hl
  simp only at hl
  simp [dce_rev, hrec, hr, hl, hp]

/-- The reverse scan only grows the live set. -/
theorem dce_rev_live_mono (f : String) (insts : List Inst) (live : Live) :
    ∀ u ∈ live, u ∈ (dce_rev f insts live).2.1 := by
  induction insts with
  | nil => intro u h; exact h
  | cons inst rest ih =>
    intro u h
    cases hr : result_id_dce inst with
    | none =>
      rw [dce_rev_cons_keep_none f inst rest live hr]
      simpa [mem_addUses] using Or.inl (ih u h)
    | some rid =>
      by_cases hl : rid ∈ (dce_rev f rest live).2.1
      · rw [dce_rev_cons_live f inst rest live rid hr hl]
        simpa [mem_addUses] using Or.inl (ih u h)
      · cases hp : is_pure inst
        · rw [dce_rev_cons_impure f inst rest live rid hr hl hp]
          simpa [mem_addUses] using Or.inl (ih u h)
        · rw [dce_rev_cons_drop f inst rest live rid hr hl hp]
          exact ih u h

/-- The reverse scan adds only operand uses of the scanned instructions. -/
theorem dce_rev_live_sub (f : String) (insts : List Inst) (live : Live) :
    ∀ u ∈ (dce_rev f insts live).2.1, u ∈ live ∨ u ∈ usesList insts := by
  induction insts with
  | nil => intro u h; exact Or.inl h
  | cons inst rest ih =>
    intro u h
    have step : u ∈ (dce_rev f rest live).2.1 ∨ u ∈ value_uses_in_inst inst := by
      cases hr : result_id_dce inst with
      | none =>
        rw [dce_rev_cons_keep_none f inst rest live hr] at h
        simpa [mem_addUses] using h
      | some rid =>
        by_cases hl : rid ∈ (dce_rev f rest live).2.1
        · rw [dce_rev_cons_live f inst rest live rid hr hl] at h
          simpa [mem_addUses] using h
        · cases hp : is_pure inst
          · rw [dce_rev_cons_impure f inst rest live rid hr hl hp] at h
            simpa [mem_addUses] using h
          · rw [dce_rev_cons_drop f inst rest live rid hr hl hp] at h
            exact Or.inl h
    rcases step with h1 | h1
    · rcases ih u h1 with h2 | h2
      · exact Or.inl h2
      · right
        rw [mem_usesList] at h2 ⊢
        obtain ⟨x, hx, hu⟩ := h2
        exact ⟨x, List.mem_cons_of_mem _ hx, hu⟩
    · right
      rw [mem_usesList]
      exact ⟨inst, List.mem_cons_self _ _, h1⟩

/-- Every kept instruction comes from the input and is kept verbatim; when it
is pure and binds a result, that result lies in the incoming live set or
among the block's operand uses. -/
theorem dce_rev_kept (f : String) (insts : List Inst) (live : Live) :
    ∀ x ∈ (dce_rev f insts live).1,
      x ∈ insts ∧
        (result_id_dce x = none ∨ is_pure x = false ∨
          ∃ r, result_id_dce x = some r ∧ (r ∈ live ∨ r ∈ usesList insts)) := by
  induction insts with
  | nil => intro x h; simp [dce_rev] at h
  | cons inst rest ih =>
    intro x h
    have weaken : ∀ y : Inst,
        (y ∈ rest ∧ (result_id_dce y = none ∨ is_pure y = false ∨
          ∃ r, result_id_dce y = some r ∧ (r ∈ live ∨ r ∈ usesList rest))) →
        (y ∈ inst :: rest ∧ (result_id_dce y = none ∨ is_pure y = false ∨
          ∃ r, result_id_dce y = some r ∧
            (r ∈ live ∨ r ∈ usesList (inst :: rest)))) := by
      rintro y ⟨h1, h2⟩
      refine ⟨List.mem_cons_of_mem _ h1, ?_⟩
      rcases h2 with h2 | h2 | ⟨r, hr2, h3⟩
      · exact Or.inl h2
      · exact Or.inr (Or.inl h2)
      · right; right
        refine ⟨r, hr2, ?_⟩
        rcases h3 with h3 | h3
        · exact Or.inl h3
        · right
          rw [mem_usesList] at h3 ⊢
          obtain ⟨z, hz, hu⟩ := h3
          exact ⟨z, List.mem_cons_of_mem _ hz, hu⟩
    cases hr : result_id_dce inst with
    | none =>
      rw [dce_rev_cons_keep_none f inst rest live hr] at h
      rcases List.mem_cons.mp h with rfl | hx
      · exact ⟨List.mem_cons_self _ _, Or.inl hr⟩
      · exact weaken x (ih x hx)
    | some rid =>
      by_cases hl : rid ∈ (dce_rev f rest live).2.1
      · rw [dce_rev_cons_live f inst rest live rid hr hl] at h
        rcases List.mem_cons.mp h with rfl | hx
        · refine ⟨List.mem_cons_self _ _, ?_⟩
          right; right
          refine ⟨rid, hr, ?_⟩
          rcases dce_rev_live_sub f rest live rid hl with h2 | h2
          · exact Or.inl h2
          · right
            rw [mem_usesList] at h2 ⊢
            obtain ⟨y, hy, hu⟩ := h2
            exact ⟨y, List.mem_cons_of_mem _ hy, hu⟩
        · exact weaken x (ih x hx)
      · cases hp : is_pure inst
        · rw [dce_rev_cons_impure f inst rest live rid hr hl hp] at h
          rcases List.mem_cons.mp h with rfl | hx
          · exact ⟨List.mem_cons_self _ _, Or.inr (Or.inl hp)⟩
          · exact weaken x (ih x hx)
        · rw [dce_rev_cons_drop f inst rest live rid hr hl hp] at h
          exact weaken x (ih x h)

/-- An instruction whose bound result is in the incoming live set is kept. -/
theorem dce_rev_keeps (f : String) (insts : List Inst) (live : Live) :
    ∀ x ∈ insts, ∀ r, result_id_dce x = some r → r ∈ live →
      x ∈ (dce_rev f insts live).1 := by
  induction insts with
  | nil => intro x h; simp at h
  | cons inst rest ih =>
    intro x hx r hxr hrl
    rcases List.mem_cons.mp hx with rfl | hx
    · have hl : r ∈ (dce_rev f rest live).2.1 := dce_rev_live_mono f rest live r hrl
      rw [dce_rev_cons_live f x rest live r hxr hl]
      exact List.mem_cons_self _ _
    · have hmem := ih x hx r hxr hrl
      cases hr : result_id_dce inst with
      | none =>
        rw [dce_rev_cons_keep_none f inst rest live hr]
        exact List.mem_cons_of_mem _ hmem
      | some rid =>
        by_cases hl : rid ∈ (dce_rev f rest live).2.1
        · rw [dce_rev_cons_live f inst rest live rid hr hl]
          exact List.mem_cons_of_mem _ hmem
        · cases hp : is_pure inst
          · rw [dce_rev_cons_impure f inst rest live rid hr hl hp]
            exact List.mem_cons_of_mem _ hmem
          · rw [dce_rev_cons_drop f inst rest live rid hr hl hp]
            exact hmem

/-- Origin of every certificate of the reverse scan: a pure instruction of
the input whose result id was (in particular) not in the incoming live set. -/
theorem dce_rev_certs (f : String) (insts : List Inst) (live : Live) :
    ∀ c ∈ (dce_rev f insts live).2.2,
      ∃ x ∈ insts, ∃ rid, result_id_dce x = some rid ∧ is_pure x = true ∧
        c = ⟨f ++ rid, "binding"⟩ ∧ rid ∉ live := by
  induction insts with
  | nil => intro c h; simp [dce_rev] at h
  | cons inst rest ih =>
    intro c h
    have weaken : (∃ x ∈ rest, ∃ rid, result_id_dce x = some rid ∧
          is_pure x = true ∧ c = ⟨f ++ rid, "binding"⟩ ∧ rid ∉ live) →
        ∃ x ∈ inst :: rest, ∃ rid, result_id_dce x = some rid ∧
          is_pure x = true ∧ c = ⟨f ++ rid, "binding"⟩ ∧ rid ∉ live := by
      rintro ⟨x, hx, rid, h1, h2, h3, h4⟩
      exact ⟨x, List.mem_cons_of_mem _ hx, rid, h1, h2, h3, h4⟩
    cases hr : result_id_dce inst with
    | none =>
      rw [dce_rev_cons_keep_none f inst rest live hr] at h
      exact weaken (ih c h)
    | some rid =>
      by_cases hl : rid ∈ (dce_rev f rest live).2.1
      · rw [dce_rev_cons_live f inst rest live rid hr hl] at h
        exact weaken (ih c h)
      · cases hp : is_pure inst
        · rw [dce_rev_cons_impure f inst rest live rid hr hl hp] at h
          exact weaken (ih c h)
        · rw [dce_rev_cons_drop f inst rest live rid hr hl hp] at h
          rcases List.mem_append.mp h with h1 | h1
          · exact weaken (ih c h1)
          · have hc : c = DceCert.mk (f ++ rid) "binding" := by simpa using h1
            have hnl : rid ∉ live := fun hmem =>
              hl (dce_rev_live_mono f rest live rid hmem)
            exact ⟨inst, List.mem_cons_self _ _, rid, hr, hp, hc, hnl⟩

/-- A pure instruction whose result is dead — not in the incoming live set
and used by no instruction of the list — is dropped with its certificate. -/
theorem dce_rev_cert_of_dead (f : String) (insts : List Inst) (live : Live) :
    ∀ x ∈ insts, ∀ rid, result_id_dce x = some rid → is_pure x = true →
      rid ∉ live → (∀ i ∈ insts, rid ∉ value_uses_in_inst i) →
      DceCert.mk (f ++ rid) "binding" ∈ (dce_rev f insts live).2.2 := by
  induction insts with
  | nil => intro x h; simp at h
  | cons inst rest ih =>
    intro x hx rid hxr hxp hnl hnu
    have hnl' : rid ∉ (dce_rev f rest live).2.1 := by
      intro hmem
      rcases dce_rev_live_sub f rest live rid hmem with h1 | h1
      · exact hnl h1
      · rw [mem_usesList] at h1
        obtain ⟨y, hy, hu⟩ := h1
        exact hnu y (List.mem_cons_of_mem _ hy) hu
    rcases List.mem_cons.mp hx with rfl | hx
    · rw [dce_rev_cons_drop f x rest live rid hxr hnl' hxp]
      simp
    · have hmem := ih x hx rid hxr hxp hnl
        (fun i hi => hnu i (List.mem_cons_of_mem _ hi))
      cases hr : result_id_dce inst with
      | none =>
        rw [dce_rev_cons_keep_none f inst rest live hr]
        exact hmem
      | some rid2 =>
        by_cases hl : rid2 ∈ (dce_rev f rest live).2.1
        · rw [dce_rev_cons_live f inst rest live rid2 hr hl]
          exact hmem
        · cases hp : is_pure inst
          · rw [dce_rev_cons_impure f inst rest live rid2 hr hl hp]
            exact hmem
          · rw [dce_rev_cons_drop f inst rest live rid2 hr hl hp]
            exact List.mem_append_left _ hmem

/-- Explicit form of `dce_block`'s output. -/
theorem dce_block_eq (f : String) (live : Live) (bb : Block) :
    dce_block f live bb =
      ({ bb with insts :=
          (dce_rev f bb.insts
            (bb.insts.foldl (fun L i => addUses L (value_uses_in_inst i)) live)).1 },
       (dce_rev f bb.insts
          (bb.insts.foldl (fun L i => addUses L (value_uses_in_inst i)) live)).2.1,
       (dce_rev f bb.insts
          (bb.insts.foldl (fun L i => addUses L (value_uses_in_inst i)) live)).2.2) := by
  unfold dce_block
  rcases h : dce_rev f bb.insts
      (bb.insts.foldl (fun L i => addUses L (value_uses_in_inst i)) live) with ⟨a, b, c⟩
  simp [h]

/-- Membership in the live set after one block. -/
theorem dce_block_live (f : String) (live : Live) (bb : Block) (u : String) :
    u ∈ (dce_block f live bb).2.1 ↔ u ∈ live ∨ u ∈ usesList bb.insts := by
  rw [dce_block_eq]
  constructor
  · intro h
    rcases dce_rev_live_sub f bb.insts _ u h with h1 | h1
    · exact (mem_forward_scan live bb.insts u).mp h1
    · exact Or.inr h1
  · intro h
    exact dce_rev_live_mono f bb.insts _ u ((mem_forward_scan live bb.insts u).mpr h)

/-- Surviving instructions of one block: subset of the originals, with the
liveness reason bounded by the incoming live set and the block's uses. -/
theorem dce_block_kept (f : String) (live : Live) (bb : Block) :
    ∀ x ∈ ((dce_block f live bb).1).insts,
      x ∈ bb.insts ∧
        (result_id_dce x = none ∨ is_pure x = false ∨
          ∃ r, result_id_dce x = some r ∧ (r ∈ live ∨ r ∈ usesList bb.insts)) := by
  intro x hx
  rw [dce_block_eq] at hx
  obtain ⟨h1, h2⟩ := dce_rev_kept f bb.insts _ x hx
  refine ⟨h1, ?_⟩
  rcases h2 with h2 | h2 | ⟨r, hr, h3⟩
  · exact Or.inl h2
  · exact Or.inr (Or.inl h2)
  · right; right
    refine ⟨r, hr, ?_⟩
    rcases h3 with h3 | h3
    · exact (mem_forward_scan live bb.insts r).mp h3
    · exact Or.inr h3

/-- An instruction of the block whose result id is used somewhere in the
block (or already live) survives the block's scan. -/
theorem dce_block_keeps (f : String) (live : Live) (bb : Block) :
    ∀ x ∈ bb.insts, ∀ r, result_id_dce x = some r →
      (r ∈ live ∨ r ∈ usesList bb.insts) →
      x ∈ ((dce_block f live bb).1).insts := by
  intro x hx r hr hmem
  rw [dce_block_eq]
  exact dce_rev_keeps f bb.insts _ x hx r hr
    ((mem_forward_scan live bb.insts r).mpr hmem)

/-- Origin of a block's certificates: dropped pure instructions whose result
id is neither already live nor used anywhere in the block. -/
theorem dce_block_certs (f : String) (live : Live) (bb : Block) :
    ∀ c ∈ (dce_block f live bb).2.2,
      ∃ x ∈ bb.insts, ∃ rid, result_id_dce x = some rid ∧ is_pure x = true ∧
        c = ⟨f ++ rid, "binding"⟩ ∧ rid ∉ live ∧ rid ∉ usesList bb.insts := by
  intro c hc
  rw [dce_block_eq] at hc
  obtain ⟨x, hx, rid, h1, h2, h3, h4⟩ := dce_rev_certs f bb.insts _ c hc
  refine ⟨x, hx, rid, h1, h2, h3, ?_, ?_⟩
  · intro hmem
    exact h4 ((mem_forward_scan live bb.insts rid).mpr (Or.inl hmem))
  · intro hmem
    exact h4 ((mem_forward_scan live bb.insts rid).mpr (Or.inr hmem))

/-- A pure instruction dead in its block (result not live, used nowhere in
the block) is dropped with its certificate. -/
theorem dce_block_cert_of_dead (f : String) (live : Live) (bb : Block) :
    ∀ x ∈ bb.insts, ∀ rid, result_id_dce x = some rid → is_pure x = true →
      rid ∉ live → rid ∉ usesList bb.insts →
      DceCert.mk (f ++ rid) "binding" ∈ (dce_block f live bb).2.2 := by
  intro x hx rid h1 h2 h3 h4
  rw [dce_block_eq]
  refine dce_rev_cert_of_dead f bb.insts _ x hx rid h1 h2 ?_ ?_
  · intro hmem
    rcases (mem_forward_scan live bb.insts rid).mp hmem with h | h
    · exact h3 h
    · exact h4 h
  · intro i hi hu
    exact h4 ((mem_usesList bb.insts rid).mpr ⟨i, hi, hu⟩)

/-- Unfolding equation for the phase-B block loop. -/
theorem dce_blocks_cons (f : String) (live : Live) (bb : Block) (rest : List Block) :
    dce_blocks f live (bb :: rest) =
      ((dce_block f live bb).1 :: (dce_blocks f (dce_block f live bb).2.1 rest).1,
       (dce_blocks f (dce_block f live bb).2.1 rest).2.1,
       (dce_block f live bb).2.2 ++ (dce_blocks f (dce_block f live bb).2.1 rest).2.2) := by
  rcases h1 : dce_block f live bb with ⟨a, b, c⟩
  rcases h2 : dce_blocks f b rest with ⟨d, e, g⟩
  simp [dce_blocks, h1, h2]

/-- Positional frame of the block loop: every surviving instruction comes
from the original block at the same index, and its liveness reason is
bounded by the incoming live set plus the uses of blocks up to that index. -/
theorem dce_blocks_kept (f : String) (bbs : List Block) :
    ∀ (live : Live) (j : Nat) (bb : Block), bbs[j]? = some bb →
      ∃ bb', (dce_blocks f live bbs).1[j]? = some bb' ∧
        bb'.label = bb.label ∧ bb'.params = bb.params ∧ bb'.term = bb.term ∧
        ∀ x ∈ bb'.insts, x ∈ bb.insts ∧
          (result_id_dce x = none ∨ is_pure x = false ∨
            ∃ r, result_id_dce x = some r ∧
              (r ∈ live ∨ ∃ (i : Nat) (bbi : Block), i ≤ j ∧ bbs[i]? = some bbi ∧
                r ∈ usesList bbi.insts)) := by
  induction bbs with
  | nil => intro live j bb h; simp at h
  | cons b0 rest ih =>
    intro live j bb h
    rw [dce_blocks_cons]
    cases j with
    | zero =>
      simp only [List.getElem?_cons_zero, Option.some.injEq] at h
      subst h
      refine ⟨(dce_block f live b0).1, by simp, ?_, ?_, ?_, ?_⟩
      · rw [dce_block_eq]
      · rw [dce_block_eq]
      · rw [dce_block_eq]
      · intro x hx
        obtain ⟨h1, h2⟩ := dce_block_kept f live b0 x hx
        refine ⟨h1, ?_⟩
        rcases h2 with h2 | h2 | ⟨r, hr, h3⟩
        · exact Or.inl h2
        · exact Or.inr (Or.inl h2)
        · right; right
          refine ⟨r, hr, ?_⟩
          rcases h3 with h3 | h3
          · exact Or.inl h3
          · exact Or.inr ⟨0, b0, Nat.le_refl 0, by simp, h3⟩
    | succ n =>
      simp only [List.getElem?_cons_succ] at h
      obtain ⟨bb', hget, hl, hp2, ht, hchar⟩ := ih (dce_block f live b0).2.1 n bb h
      refine ⟨bb', by simpa using hget, hl, hp2, ht, ?_⟩
      intro x hx
      obtain ⟨h1, h2⟩ := hchar x hx
      refine ⟨h1, ?_⟩
      rcases h2 with h2 | h2 | ⟨r, hr, h3⟩
      · exact Or.inl h2
      · exact Or.inr (Or.inl h2)
      · right; right
        refine ⟨r, hr, ?_⟩
        rcases h3 with h3 | ⟨i, bbi, hij, hgi, hu⟩
        · rcases (dce_block_live f live b0 r).mp h3 with h4 | h4
          · exact Or.inl h4
          · exact Or.inr ⟨0, b0, Nat.zero_le _, by simp, h4⟩
        · exact Or.inr ⟨i + 1, bbi, Nat.succ_le_succ hij, by simpa using hgi, hu⟩

/-- An instruction whose result id is used inside its own block survives the
whole block loop at its block's index. -/
theorem dce_blocks_keeps (f : String) (bbs : List Block) :
    ∀ (live : Live) (j : Nat) (bb : Block), bbs[j]? = some bb →
      ∀ x ∈ bb.insts, ∀ r, result_id_dce x = some r → r ∈ usesList bb.insts →
        ∃ bb', (dce_blocks f live bbs).1[j]? = some bb' ∧ x ∈ bb'.insts := by
  induction bbs with
  | nil => intro live j bb h; simp at h
  | cons b0 rest ih =>
    intro live j bb h x hx r hr hu
    rw [dce_blocks_cons]
    cases j with
    | zero =>
      simp only [List.getElem?_cons_zero, Option.some.injEq] at h
      subst h
      exact ⟨(dce_block f live b0).1, by simp,
             dce_block_keeps f live b0 x hx r hr (Or.inr hu)⟩
    | succ n =>
      simp only [List.getElem?_cons_succ] at h
      obtain ⟨bb', hget, hmem⟩ := ih (dce_block f live b0).2.1 n bb h x hx r hr hu
      exact ⟨bb', by simpa using hget, hmem⟩

/-- A pure instruction whose result id is not in the incoming live set and is
used in no block is dropped with its certificate during the block loop. -/
theorem dce_blocks_cert_of_dead (f : String) (bbs : List Block) :
    ∀ (live : Live) (j : Nat) (bb : Block), bbs[j]? = some bb →
      ∀ x ∈ bb.insts, ∀ rid, result_id_dce x = some rid → is_pure x = true →
        rid ∉ live →
        (∀ (i : Nat) (bbi : Block), bbs[i]? = some bbi → rid ∉ usesList bbi.insts) →
        DceCert.mk (f ++ rid) "binding" ∈ (dce_blocks f live bbs).2.2 := by
  induction bbs with
  | nil => intro live j bb h; simp at h
  | cons b0 rest ih =>
    intro live j bb h x hx rid h1 h2 h3 h4
    rw [dce_blocks_cons]
    cases j with
    | zero =>
      simp only [List.getElem?_cons_zero, Option.some.injEq] at h
      subst h
      exact List.mem_append_left _
        (dce_block_cert_of_dead f live b0 x hx rid h1 h2 h3
          (h4 0 b0 (by simp)))
    | succ n =>
      simp only [List.getElem?_cons_succ] at h
      have h3' : rid ∉ (dce_block f live b0).2.1 := by
        intro hmem
        rcases (dce_block_live f live b0 rid).mp hmem with hm | hm
        · exact h3 hm
        · exact h4 0 b0 (by simp) hm
      have h4' : ∀ (i : Nat) (bbi : Block), rest[i]? = some bbi → rid ∉ usesList bbi.insts := by
        intro i bbi hi
        exact h4 (i + 1) bbi (by simpa using hi)
      exact List.mem_append_right _
        (ih (dce_block f live b0).2.1 n bb h x hx rid h1 h2 h3' h4')

/-- Origin of every certificate of the block loop. -/
theorem dce_blocks_certs (f : String) (bbs : List Block) :
    ∀ (live : Live), ∀ c ∈ (dce_blocks f live bbs).2.2,
      ∃ (j : Nat) (bb : Block) (x : Inst) (rid : String), bbs[j]? = some bb ∧ x ∈ bb.insts ∧
        result_id_dce x = some rid ∧ is_pure x = true ∧
        c = ⟨f ++ rid, "binding"⟩ ∧ rid ∉ live ∧
        (∀ (i : Nat) (bbi : Block), i ≤ j → bbs[i]? = some bbi → rid ∉ usesList bbi.insts) := by
  induction bbs with
  | nil => intro live c h; simp [dce_blocks] at h
  | cons b0 rest ih =>
    intro live c h
    rw [dce_blocks_cons] at h
    rcases List.mem_append.mp h with h1 | h1
    · obtain ⟨x, hx, rid, hr, hp, hc, hlive, huse⟩ := dce_block_certs f live b0 c h1
      refine ⟨0, b0, x, rid, by simp, hx, hr, hp, hc, hlive, ?_⟩
      intro i bbi hij hgi
      have hi0 : i = 0 := Nat.le_zero.mp hij
      subst hi0
      simp only [List.getElem?_cons_zero, Option.some.injEq] at hgi
      subst hgi
      exact huse
    · obtain ⟨j, bb, x, rid, hj, hx, hr, hp, hc, hlive, huse⟩ :=
        ih (dce_block f live b0).2.1 c h1
      refine ⟨j + 1, bb, x, rid, by simpa using hj, hx, hr, hp, hc, ?_, ?_⟩
      · intro hmem
        exact hlive ((dce_block_live f live b0 rid).mpr (Or.inl hmem))
      · intro i bbi hij hgi
        cases i with
        | zero =>
          simp only [List.getElem?_cons_zero, Option.some.injEq] at hgi
          subst hgi
          intro hmem
          exact hlive ((dce_block_live f live b0 rid).mpr (Or.inr hmem))
        | succ m =>
          simp only [List.getElem?_cons_succ] at hgi
          exact huse m bbi (Nat.le_of_succ_le_succ hij) hgi

/-- Convert list membership to an indexed lookup. -/
theorem mem_to_getElem {α : Type} (l : List α) (a : α) (h : a ∈ l) :
    ∃ i : Nat, l[i]? = some a := by
  obtain ⟨i, hi, rfl⟩ := List.mem_iff_getElem.mp h
  exact ⟨i, List.getElem?_eq_getElem hi⟩

/-- Convert an indexed lookup to list membership. -/
theorem getElem_to_mem {α : Type} (l : List α) (a : α) (i : Nat)
    (h : l[i]? = some a) : a ∈ l := by
  obtain ⟨hlt, rfl⟩ := List.getElem?_eq_some.mp h
  exact List.getElem_mem hlt

/-- Membership after the terminator seeding scan. -/
theorem mem_term_scan (blocks : List Block) (live : Live) (u : String) :
    u ∈ blocks.foldl (fun L bb => addUses L (term_uses bb.term)) live ↔
      u ∈ live ∨ ∃ bb ∈ blocks, u ∈ term_uses bb.term := by
  induction blocks generalizing live with
  | nil => simp
  | cons b t ih =>
    show u ∈ t.foldl _ (addUses live (term_uses b.term)) ↔ _
    rw [ih, mem_addUses]
    simp
    tauto

/-- The block loop preserves the number of blocks. -/
theorem dce_blocks_length (f : String) (bbs : List Block) :
    ∀ live, (dce_blocks f live bbs).1.length = bbs.length := by
  induction bbs with
  | nil => intro live; rfl
  | cons b0 rest ih =>
    intro live
    rw [dce_blocks_cons]
    simp [ih]

/-- Membership in a block's bound result ids. -/
theorem mem_bound_ids (bb : Block) (r : String) :
    r ∈ bound_ids bb ↔ ∃ x ∈ bb.insts, result_id_dce x = some r := by
  simp [bound_ids, List.mem_filterMap]

/-- Explicit form of `dce_instructions_in_function`. -/
theorem dce_fn_eq (fn : Func) :
    dce_instructions_in_function fn =
      ({ fn with blocks :=
          (dce_blocks fn.name
            (fn.blocks.foldl (fun L bb => addUses L (term_uses bb.term)) [])
            fn.blocks).1 },
       (dce_blocks fn.name
          (fn.blocks.foldl (fun L bb => addUses L (term_uses bb.term)) [])
          fn.blocks).2.2) := by
  unfold dce_instructions_in_function
  rcases h : dce_blocks fn.name
      (fn.blocks.foldl (fun L bb => addUses L (term_uses bb.term)) [])
      fn.blocks with ⟨a, b, c⟩
  simp [h]

/-- Phase-B soundness per function: every certificate it appends names (with
the function-name prefix) a value id that afterwards occurs in no surviving
instruction's operands and in no terminator of that function, provided the
function satisfies the O-IR reference invariants (intra-block def/use,
unique result ids, parameters disjoint from results). -/
theorem dce_fn_certs (fn : Func)
    (hwf1 : ∀ bb ∈ fn.blocks, ∀ u ∈ usesList bb.insts,
      u ∈ param_refs fn ∨ u ∈ bound_ids bb)
    (hwf2 : ∀ (i j : Nat) (bbi bbj : Block), i ≠ j → fn.blocks[i]? = some bbi →
      fn.blocks[j]? = some bbj → ∀ u ∈ bound_ids bbi, u ∉ bound_ids bbj)
    (hwf3 : ∀ u ∈ param_refs fn, ∀ bb ∈ fn.blocks, u ∉ bound_ids bb) :
    ∀ c ∈ (dce_instructions_in_function fn).2,
      c.kind = "binding" ∧ ∃ rid, c.symbol = fn.name ++ rid ∧
        ∀ bb' ∈ (dce_instructions_in_function fn).1.blocks,
          (∀ x ∈ bb'.insts, rid ∉ value_uses_in_inst x) ∧
          rid ∉ term_uses bb'.term := by
  intro c hc
  rw [dce_fn_eq] at hc
  obtain ⟨j, bb, x, rid, hj, hx, hr, hp, hceq, hlive, huse⟩ :=
    dce_blocks_certs fn.name fn.blocks
      (fn.blocks.foldl (fun L b => addUses L (term_uses b.term)) []) c hc
  subst hceq
  have hbound : rid ∈ bound_ids bb := (mem_bound_ids bb rid).mpr ⟨x, hx, hr⟩
  refine ⟨rfl, rid, rfl, ?_⟩
  intro bb' hbb'
  rw [dce_fn_eq] at hbb'
  simp only at hbb'
  obtain ⟨j2, hj2⟩ := mem_to_getElem _ bb' hbb'
  have hlen := dce_blocks_length fn.name fn.blocks
    (fn.blocks.foldl (fun L b => addUses L (term_uses b.term)) [])
  have hj2lt : j2 < fn.blocks.length := by
    have := (List.getElem?_eq_some.mp hj2).1
    rw [hlen] at this
    exact this
  have horig : fn.blocks[j2]? = some fn.blocks[j2] := List.getElem?_eq_getElem hj2lt
  obtain ⟨bb'', hget'', hlab, hpar, hterm, hchar⟩ :=
    dce_blocks_kept fn.name fn.blocks
      (fn.blocks.foldl (fun L b => addUses L (term_uses b.term)) [])
      j2 fn.blocks[j2] horig
  have hbbeq : bb'' = bb' := by
    rw [hget''] at hj2
    exact Option.some.inj hj2
  subst hbbeq
  constructor
  · intro x' hx' hmemuse
    obtain ⟨hx'orig, -⟩ := hchar x' hx'
    have huses : rid ∈ usesList (fn.blocks[j2]).insts :=
      (mem_usesList _ rid).mpr ⟨x', hx'orig, hmemuse⟩
    rcases le_or_lt j2 j with hle | hgt
    · exact huse j2 fn.blocks[j2] hle horig huses
    · rcases hwf1 fn.blocks[j2] (getElem_to_mem _ _ _ horig) rid huses with hparam | hbnd
      · exact hwf3 rid hparam bb (getElem_to_mem _ _ _ hj) hbound
      · exact hwf2 j j2 bb fn.blocks[j2] (Nat.ne_of_lt hgt) hj horig rid hbound hbnd
  · intro hmemterm
    rw [hterm] at hmemterm
    have : rid ∈ fn.blocks.foldl (fun L b => addUses L (term_uses b.term)) [] :=
      (mem_term_scan fn.blocks [] rid).mpr
        (Or.inr ⟨fn.blocks[j2], getElem_to_mem _ _ _ horig, hmemterm⟩)
    exact hlive this

/-! ## Claim C1 -/

/-- C1 counterexample: a single `run_dce` over the dead chain drops only the
chain's head `%b` (one certificate); the tail `%a` — used only by the dropped
instruction — survives the run, because the conservative forward scan had
already added `%a` to the live set. -/
theorem claim_C1_counterexample :
    (run_dce deadChainM).certificates.dce = [⟨"f%b", "binding"⟩] ∧
    (run_dce deadChainM).module.functions.map (fun fn => fn.blocks.map Block.insts) =
      [[[.const (some ⟨"%a", some "i32"⟩) (some "i32") (some (.i 1))]]] := by
  constructor <;> rfl

/-- C1 (amended): for a dead chain (pure `A` binding `ra`, used only as an
operand of pure `B` binding `rb`, with `rb` used nowhere in the function),
a single run of the instruction-level phase drops `B` with its certificate
but keeps `A`: the initial forward scan seeds the live set with every operand
referenced in the block, including `ra`, so `A` stays live; removing `A`
requires a further run. -/
theorem claim_C1 (fn : Func) (k i j : Nat) (bb : Block) (A B : Inst)
    (ra rb : String)
    (hbb : fn.blocks[k]? = some bb)
    (hA : bb.insts[i]? = some A) (hB : bb.insts[j]? = some B)
    (_hApure : is_pure A = true) (hAr : result_id_dce A = some ra)
    (hBpure : is_pure B = true) (hBr : result_id_dce B = some rb)
    (huse : ra ∈ value_uses_in_inst B)
    (hdeadU : ∀ (bi : Nat) (bbi : Block), fn.blocks[bi]? = some bbi →
      rb ∉ usesList bbi.insts)
    (hdeadT : ∀ (bi : Nat) (bbi : Block), fn.blocks[bi]? = some bbi →
      rb ∉ term_uses bbi.term) :
    ∃ bb', (dce_instructions_in_function fn).1.blocks[k]? = some bb' ∧
      A ∈ bb'.insts ∧ B ∉ bb'.insts ∧
      DceCert.mk (fn.name ++ rb) "binding" ∈ (dce_instructions_in_function fn).2 := by
  have hAmem : A ∈ bb.insts := getElem_to_mem _ _ _ hA
  have hBmem : B ∈ bb.insts := getElem_to_mem _ _ _ hB
  have hrause : ra ∈ usesList bb.insts := (mem_usesList _ ra).mpr ⟨B, hBmem, huse⟩
  have hlive0 : rb ∉ fn.blocks.foldl (fun L b => addUses L (term_uses b.term)) [] := by
    intro hmem
    rcases (mem_term_scan fn.blocks [] rb).mp hmem with h0 | ⟨bbt, hbt, hterm⟩
    · simp at h0
    · obtain ⟨bi, hbi⟩ := mem_to_getElem _ bbt hbt
      exact hdeadT bi bbt hbi hterm
  obtain ⟨bb', hget, hAmem'⟩ :=
    dce_blocks_keeps fn.name fn.blocks
      (fn.blocks.foldl (fun L b => addUses L (term_uses b.term)) [])
      k bb hbb A hAmem ra hAr hrause
  obtain ⟨bb'', hget'', hlab, hpar, hterm, hchar⟩ :=
    dce_blocks_kept fn.name fn.blocks
      (fn.blocks.foldl (fun L b => addUses L (term_uses b.term)) [])
      k bb hbb
  have hbbeq : bb'' = bb' := by
    rw [hget''] at hget
    exact Option.some.inj hget
  subst hbbeq
  have hcert :=
    dce_blocks_cert_of_dead fn.name fn.blocks
      (fn.blocks.foldl (fun L b => addUses L (term_uses b.term)) [])
      k bb hbb B hBmem rb hBr hBpure hlive0
      (fun bi bbi hbi => hdeadU bi bbi hbi)
  rw [dce_fn_eq]
  refine ⟨bb'', hget'', hAmem', ?_, hcert⟩
  intro hBin
  obtain ⟨-, hcase⟩ := hchar B hBin
  rcases hcase with h1 | h1 | ⟨r, hreq, h2⟩
  · rw [hBr] at h1; cases h1
  · rw [hBpure] at h1; cases h1
  · rw [hBr] at hreq
    obtain rfl : rb = r := Option.some.inj hreq
    rcases h2 with h2 | ⟨i2, bbi, hle, hgi, hu⟩
    · exact hlive0 h2
    · exact hdeadU i2 bbi hgi hu

/-- Witness for C1 at the dead-chain example. -/
theorem claim_C1_witness :
    ∃ bb', (dce_instructions_in_function deadChainFn).1.blocks[0]? = some bb' ∧
      (Inst.const (some ⟨"%a", some "i32"⟩) (some "i32") (some (.i 1))) ∈ bb'.insts ∧
      (Inst.unary "not_i32" (some ⟨"%b", some "i32"⟩) "%a") ∉ bb'.insts ∧
      DceCert.mk (deadChainFn.name ++ "%b") "binding" ∈
        (dce_instructions_in_function deadChainFn).2 :=
  claim_C1 deadChainFn 0 0 1 deadChainBlock
    (.const (some ⟨"%a", some "i32"⟩) (some "i32") (some (.i 1)))
    (.unary "not_i32" (some ⟨"%b", some "i32"⟩) "%a") "%a" "%b"
    rfl rfl rfl rfl rfl rfl rfl (by decide)
    (by
      intro bi bbi h
      cases bi with
      | zero =>
        simp only [deadChainFn, List.getElem?_cons_zero, Option.some.injEq] at h
        subst h
        decide
      | succ n => simp [deadChainFn] at h)
    (by
      intro bi bbi h
      cases bi with
      | zero =>
        simp only [deadChainFn, List.getElem?_cons_zero, Option.some.injEq] at h
        subst h
        decide
      | succ n => simp [deadChainFn] at h)

/-! ## Claim C2 -/

/-- Unfolding equation for the phase-A filter loop. -/
theorem dce_fns_split_cons (used : Finset String) (fn : Func) (rest : List Func) :
    dce_fns_split used (fn :: rest) =
      (if fn.name ∉ used ∧ function_linkage fn = "internal" ∧ fn.exported = false
       then (dce_fns_split used rest).1
       else fn :: (dce_fns_split used rest).1,
       if fn.name ∉ used ∧ function_linkage fn = "internal" ∧ fn.exported = false
       then ⟨fn.name, "function"⟩ :: (dce_fns_split used rest).2
       else (dce_fns_split used rest).2) := by
  rcases h : dce_fns_split used rest with ⟨a, b⟩
  by_cases hcond : fn.name ∉ used ∧ function_linkage fn = "internal" ∧ fn.exported = false
  · simp [dce_fns_split, h, if_pos hcond]
  · simp [dce_fns_split, h, if_neg hcond]

/-- First component of `dce_fns_split_cons`. -/
theorem dce_fns_split_cons_fst (used : Finset String) (fn : Func) (rest : List Func) :
    (dce_fns_split used (fn :: rest)).1 =
      if fn.name ∉ used ∧ function_linkage fn = "internal" ∧ fn.exported = false
      then (dce_fns_split used rest).1
      else fn :: (dce_fns_split used rest).1 := by
  rw [dce_fns_split_cons]

/-- Second component of `dce_fns_split_cons`. -/
theorem dce_fns_split_cons_snd (used : Finset String) (fn : Func) (rest : List Func) :
    (dce_fns_split used (fn :: rest)).2 =
      if fn.name ∉ used ∧ function_linkage fn = "internal" ∧ fn.exported = false
      then DceCert.mk fn.name "function" :: (dce_fns_split used rest).2
      else (dce_fns_split used rest).2 := by
  rw [dce_fns_split_cons]

/-- Every phase-A certificate has kind `function`. -/
theorem dce_fns_split_certs (used : Finset String) :
    ∀ (fns : List Func), ∀ c ∈ (dce_fns_split used fns).2, c.kind = "function" := by
  intro fns
  induction fns with
  | nil => intro c h; simp [dce_fns_split] at h
  | cons fn rest ih =>
    intro c h
    rw [dce_fns_split_cons_snd] at h
    by_cases hcond : fn.name ∉ used ∧ function_linkage fn = "internal" ∧ fn.exported = false
    · rw [if_pos hcond] at h
      rcases List.mem_cons.mp h with rfl | h1
      · rfl
      · exact ih c h1
    · rw [if_neg hcond] at h
      exact ih c h

/-- Phase A only filters the function list. -/
theorem dce_fns_split_sub (used : Finset String) :
    ∀ (fns : List Func), ∀ fn ∈ (dce_fns_split used fns).1, fn ∈ fns := by
  intro fns
  induction fns with
  | nil => intro fn h; simp [dce_fns_split] at h
  | cons f0 rest ih =>
    intro fn h
    rw [dce_fns_split_cons_fst] at h
    by_cases hcond : f0.name ∉ used ∧ function_linkage f0 = "internal" ∧ f0.exported = false
    · rw [if_pos hcond] at h
      exact List.mem_cons_of_mem _ (ih fn h)
    · rw [if_neg hcond] at h
      rcases List.mem_cons.mp h with rfl | h1
      · exact List.mem_cons_self _ _
      · exact List.mem_cons_of_mem _ (ih fn h1)

/-- Explicit form of `dce_functions`. -/
theorem dce_functions_eq (m : Module) :
    dce_functions m =
      ({ m with functions :=
          (dce_fns_split (used_loop m.functions (m.functions.length + 1) (used_seed m))
            m.functions).1 },
       (dce_fns_split (used_loop m.functions (m.functions.length + 1) (used_seed m))
          m.functions).2) := by
  unfold dce_functions
  rcases h : dce_fns_split (used_loop m.functions (m.functions.length + 1) (used_seed m))
      m.functions with ⟨a, b⟩
  simp [h]

/-- Unfolding equation for the phase-B function loop. -/
theorem dce_instructions_cons (fn : Func) (rest : List Func) :
    dce_instructions (fn :: rest) =
      ((dce_instructions_in_function fn).1 :: (dce_instructions rest).1,
       (dce_instructions_in_function fn).2 ++ (dce_instructions rest).2) := by
  rcases h1 : dce_instructions_in_function fn with ⟨a, b⟩
  rcases h2 : dce_instructions rest with ⟨c, d⟩
  simp [dce_instructions, h1, h2]

/-- First component of `dce_instructions_cons`. -/
theorem dce_instructions_cons_fst (fn : Func) (rest : List Func) :
    (dce_instructions (fn :: rest)).1 =
      (dce_instructions_in_function fn).1 :: (dce_instructions rest).1 := by
  rw [dce_instructions_cons]

/-- Second component of `dce_instructions_cons`. -/
theorem dce_instructions_cons_snd (fn : Func) (rest : List Func) :
    (dce_instructions (fn :: rest)).2 =
      (dce_instructions_in_function fn).2 ++ (dce_instructions rest).2 := by
  rw [dce_instructions_cons]

/-- Every phase-B certificate comes from some function of the list, whose
processed version is in the output list. -/
theorem dce_instructions_certs (fns : List Func) :
    ∀ c ∈ (dce_instructions fns).2,
      ∃ fn ∈ fns, c ∈ (dce_instructions_in_function fn).2 ∧
        (dce_instructions_in_function fn).1 ∈ (dce_instructions fns).1 := by
  induction fns with
  | nil => intro c h; simp [dce_instructions] at h
  | cons fn rest ih =>
    intro c h
    rw [dce_instructions_cons_snd] at h
    rcases List.mem_append.mp h with h1 | h1
    · refine ⟨fn, List.mem_cons_self _ _, h1, ?_⟩
      rw [dce_instructions_cons_fst]
      exact List.mem_cons_self _ _
    · obtain ⟨g, hg, hcg, hgout⟩ := ih c h1
      refine ⟨g, List.mem_cons_of_mem _ hg, hcg, ?_⟩
      rw [dce_instructions_cons_fst]
      exact List.mem_cons_of_mem _ hgout

/-- The functions of `run_dce`'s output. -/
theorem run_dce_functions (o : OIR) :
    (run_dce o).module.functions =
      (dce_instructions (dce_functions o.module).1.functions).1 := by
  unfold run_dce
  rcases h1 : dce_functions o.module with ⟨m1, f⟩
  rcases h2 : dce_instructions m1.functions with ⟨a, b⟩
  simp [h1, h2]

/-- The `dce` certificate ledger of `run_dce`'s output. -/
theorem run_dce_dce_certs (o : OIR) :
    (run_dce o).certificates.dce =
      o.certificates.dce ++ (dce_functions o.module).2 ++
        (dce_instructions (dce_functions o.module).1.functions).2 := by
  unfold run_dce
  rcases h1 : dce_functions o.module with ⟨m1, f⟩
  rcases h2 : dce_instructions m1.functions with ⟨a, b⟩
  simp [h1, h2]

/-- C2: for every `binding` certificate appended by `run_dce`, the value id
it names (the symbol with the function-name prefix stripped) occurs neither
as an operand of a surviving instruction nor in any terminator's operand
list, in any block of that function — under the O-IR reference invariants
(intra-block def/use, unique result ids, parameters disjoint from bound
results). -/
theorem claim_C2 (o : OIR)
    (hwf : ∀ fn ∈ o.module.functions,
      (∀ bb ∈ fn.blocks, ∀ u ∈ usesList bb.insts,
        u ∈ param_refs fn ∨ u ∈ bound_ids bb) ∧
      (∀ (i j : Nat) (bbi bbj : Block), i ≠ j → fn.blocks[i]? = some bbi →
        fn.blocks[j]? = some bbj → ∀ u ∈ bound_ids bbi, u ∉ bound_ids bbj) ∧
      (∀ u ∈ param_refs fn, ∀ bb ∈ fn.blocks, u ∉ bound_ids bb)) :
    ∀ c ∈ (run_dce o).certificates.dce.drop o.certificates.dce.length,
      c.kind = "binding" →
      ∃ fn' ∈ (run_dce o).module.functions, ∃ rid,
        c.symbol = fn'.name ++ rid ∧
        ∀ bb' ∈ fn'.blocks,
          (∀ x ∈ bb'.insts, rid ∉ value_uses_in_inst x) ∧
          rid ∉ term_uses bb'.term := by
  intro c hc hkind
  rw [run_dce_dce_certs, List.append_assoc, List.drop_left] at hc
  rcases List.mem_append.mp hc with h1 | h1
  · have hfun : c.kind = "function" := by
      have h2 : (dce_functions o.module).2 =
          (dce_fns_split (used_loop o.module.functions
            (o.module.functions.length + 1) (used_seed o.module))
            o.module.functions).2 := by
        rw [dce_functions_eq]
      rw [h2] at h1
      exact dce_fns_split_certs _ _ c h1
    rw [hfun] at hkind
    exact absurd hkind (by decide)
  · obtain ⟨fn, hfnmem, hcfn, hfnout⟩ := dce_instructions_certs _ c h1
    have hfnorig : fn ∈ o.module.functions := by
      rw [dce_functions_eq] at hfnmem
      exact dce_fns_split_sub _ _ fn hfnmem
    obtain ⟨hw1, hw2, hw3⟩ := hwf fn hfnorig
    obtain ⟨-, rid, hsym, hprop⟩ := dce_fn_certs fn hw1 hw2 hw3 c hcfn
    refine ⟨(dce_instructions_in_function fn).1, ?_, rid, ?_, ?_⟩
    · rw [run_dce_functions]
      exact hfnout
    · rw [dce_fn_eq]
      exact hsym
    · intro bb' hbb'
      exact hprop bb' hbb'

/-- Witness for C2 at the dead-chain module: its single function satisfies
the reference invariants, so every appended binding certificate is sound. -/
theorem claim_C2_witness :
    ∃ fn' ∈ (run_dce deadChainM).module.functions, ∃ rid,
      (DceCert.mk "f%b" "binding").symbol = fn'.name ++ rid ∧
      ∀ bb' ∈ fn'.blocks,
        (∀ x ∈ bb'.insts, rid ∉ value_uses_in_inst x) ∧
        rid ∉ term_uses bb'.term :=
  claim_C2 deadChainM
    (by
      intro fn hfn
      simp only [deadChainM] at hfn
      rcases List.mem_singleton.mp hfn with rfl
      refine ⟨?_, ?_, ?_⟩
      · intro bb hbb
        rcases List.mem_singleton.mp hbb with rfl
        intro u hu
        right
        have h : usesList deadChainBlock.insts = ["%a"] := rfl
        rw [h] at hu
        rcases List.mem_singleton.mp hu with rfl
        decide
      · intro i j bbi bbj hne hgi hgj
        cases i with
        | zero =>
          cases j with
          | zero => exact absurd rfl hne
          | succ m => simp [deadChainFn] at hgj
        | succ n => simp [deadChainFn] at hgi
      · intro u hu
        simp [param_refs, deadChainFn] at hu)
    ⟨"f%b", "binding"⟩ (by decide) rfl

/-! ## C7: the identity round trip -/

set_option maxRecDepth 8000 in
/-- C7: lowering the identity T-IR definition yields exactly one O-IR
function `id` with one i32 parameter `x`, one i32 result, a single
instruction-free block `entry` terminated by `Return ["%x"]`, exported; and
its generated WAT contains the substrings `(export "id")` and
`(local.get $x)`. -/
theorem claim_C7 :
    (lower tir7).module.functions =
      [⟨"id", [⟨"x", some "i32"⟩], [some "i32"],
        [⟨"entry", [], [], .ret ["%x"]⟩], true, none, true⟩] ∧
    ∃ w, oir_to_wat (lower tir7) = Except.ok w ∧
      List.IsInfix "(export \"id\")".data w.data ∧
      List.IsInfix "(local.get $x)".data w.data := by
  refine ⟨rfl,
    "(module\n  (memory (export \"memory\") 1)\n  (export \"id\") (func $id (param $x i32) (result i32)\n      (local.get $x)\n  )\n)\n",
    rfl, ?_, ?_⟩ <;> decide

/-! ## C8: unit parameter/result types in codegen -/

/-- C8 counterexample: a `unit`-typed PARAMETER does not raise.
`_ty_to_wat` maps `unit` to the empty string, so the parameter is silently
emitted as the malformed WAT fragment `(param $x )`. -/
theorem claim_C8_counterexample :
    oir_to_wat unitParamM =
      Except.ok "(module\n  (memory (export \"memory\") 1)\n  (func $g (param $x )\n      nop\n  )\n)\n" :=
  rfl

/-- `results_to_wat` always raises when `unit` occurs among the results. -/
theorem results_to_wat_unit (fname : String) :
    ∀ results : List (Option String), some "unit" ∈ results →
      ∃ e, results_to_wat fname results = Except.error e := by
  intro results hu
  match results with
  | [] => cases hu
  | [r] =>
    rcases List.mem_singleton.mp hu with rfl
    exact ⟨"function " ++ fname ++ ": invalid unit type in results", rfl⟩
  | r1 :: r2 :: rest =>
    refine ⟨"function " ++ fname ++ ": multiple results not supported in MVP", ?_⟩
    simp only [results_to_wat]
    rw [if_pos (by simp only [List.length_cons]; omega)]

/-- If `func_to_wat` succeeds then the results section succeeded. -/
theorem func_to_wat_ok_results (fn : Func) (s : String)
    (h : func_to_wat fn = Except.ok s) :
    ∃ rs, results_to_wat fn.name fn.results = Except.ok rs := by
  rw [func_to_wat] at h
  rcases hp : params_to_wat fn.params.enum with e | ⟨ps, ws⟩
  · rw [hp] at h; simp only [Bind.bind, Except.bind] at h; cases h
  · rw [hp] at h
    simp only [Bind.bind, Except.bind] at h
    split at h
    · cases h
    · split at h
      · cases h
      · split at h
        · cases h
        · rename_i rs heq
          exact ⟨rs, heq⟩

/-- If the function loop succeeds then `func_to_wat` succeeded on every
function of the list. -/
theorem funcs_to_wat_ok (fns : List Func) (ts : List String)
    (h : funcs_to_wat fns = Except.ok ts) :
    ∀ fn ∈ fns, ∃ s, func_to_wat fn = Except.ok s := by
  induction fns generalizing ts with
  | nil => intro fn hmem; cases hmem
  | cons f0 rest ih =>
    intro fn hmem
    rw [funcs_to_wat] at h
    rcases h0 : func_to_wat f0 with e | t
    · rw [h0] at h; simp only [Bind.bind, Except.bind] at h; cases h
    · rw [h0] at h
      simp only [Bind.bind, Except.bind] at h
      rcases hrest : funcs_to_wat rest with e | ts0
      · rw [hrest] at h; simp only [Bind.bind, Except.bind] at h; cases h
      · rcases List.mem_cons.mp hmem with rfl | hmem0
        · exact ⟨t, h0⟩
        · exact ih ts0 hrest fn hmem0

/-- C8 (amended): a `unit` type among a function's RESULTS makes
`oir_to_wat` raise (the parameter side, by contrast, is emitted silently —
see the counterexample). -/
theorem claim_C8 (o : OIR) (fn : Func) (hfn : fn ∈ o.module.functions)
    (hu : some "unit" ∈ fn.results) :
    ∃ e, oir_to_wat o = Except.error e := by
  have hne : o.module.functions.isEmpty = false := by
    cases hl : o.module.functions with
    | nil => rw [hl] at hfn; cases hfn
    | cons a t => rfl
  rw [oir_to_wat, if_neg (by rw [hne]; exact Bool.false_ne_true)]
  rcases hres : funcs_to_wat o.module.functions with e | ts
  · exact ⟨e, by simp only [Bind.bind, Except.bind]⟩
  · exfalso
    obtain ⟨s, hs⟩ := funcs_to_wat_ok _ _ hres fn hfn
    obtain ⟨rs, hrs⟩ := func_to_wat_ok_results fn s hs
    obtain ⟨e, he⟩ := results_to_wat_unit fn.name fn.results hu
    rw [hrs] at he
    cases he

/-- Witness for C8 at a concrete module with a `unit` result. -/
theorem claim_C8_witness :
    unitResFn ∈ unitResM.module.functions ∧
    some "unit" ∈ unitResFn.results ∧
    ∃ e, oir_to_wat unitResM = Except.error e :=
  ⟨by decide, by decide, claim_C8 unitResM unitResFn (by decide) (by decide)⟩

/-! ## C9: the symbol sanitizer and non-ASCII alphanumerics -/

/-- C9: the sanitizer does NOT map every character outside `[A-Za-z0-9_./]`
to `_`: the non-ASCII letter `é` (U+00E9) is outside that class, yet
`sanitize_sym` keeps it unchanged, because Python's Unicode-aware
`str.isalnum` returns True on it. -/
theorem claim_C9 :
    spec_sym_class 'é' = false ∧
    sanitize_sym "é" = "é" ∧
    sanitize_sym "é" ≠ "_" := by
  exact ⟨rfl, rfl, by decide⟩

/-! ## C5: the call-graph closure of function-level DCE -/

/-- A successful `name_to_fn` lookup returns a function of the list bearing
the looked-up name. -/
theorem name_to_fn_some (fns : List Func) (n : String) (fn : Func)
    (h : name_to_fn fns n = some fn) : fn ∈ fns ∧ fn.name = n := by
  unfold name_to_fn at h
  obtain ⟨hne, heq⟩ := List.mem_getLast?_eq_getLast (Option.mem_def.mpr h)
  have hmem : fn ∈ fns.filter (fun f => f.name = n) := by
    rw [heq]; exact List.getLast_mem hne
  have := List.mem_filter.mp hmem
  exact ⟨this.1, by simpa using this.2⟩

/-- With pairwise-distinct function names, `name_to_fn` finds each listed
function under its own name. -/
theorem name_to_fn_of_nodup (fns : List Func)
    (hnd : (fns.map Func.name).Nodup) (fn : Func) (hmem : fn ∈ fns) :
    name_to_fn fns fn.name = some fn := by
  induction fns with
  | nil => cases hmem
  | cons f0 rest ih =>
    rw [List.map_cons, List.nodup_cons] at hnd
    rcases List.mem_cons.mp hmem with rfl | hmem0
    · have hnil : rest.filter (fun f => f.name = fn.name) = [] := by
        rw [List.filter_eq_nil_iff]
        intro g hg hgname
        exact hnd.1 (List.mem_map.mpr ⟨g, hg, by simpa using hgname⟩)
      unfold name_to_fn
      rw [List.filter_cons, if_pos (by simp), hnil]
      rfl
    · have hne : f0.name ≠ fn.name := by
        intro hcontr
        exact hnd.1 (hcontr ▸ List.mem_map.mpr ⟨fn, hmem0, rfl⟩)
      unfold name_to_fn
      rw [List.filter_cons, if_neg (by simpa using hne)]
      exact ih hnd.2 hmem0

/-- Membership in an append-accumulating fold. -/
theorem mem_foldr_append {α β : Type} (g : α → List β) (L : List α) (x : β) :
    x ∈ L.foldr (fun n acc => g n ++ acc) [] ↔ ∃ n ∈ L, x ∈ g n := by
  induction L with
  | nil => simp
  | cons a t ih => simp [ih]

/-- Membership in one closure step's contribution. -/
theorem mem_step_callees (fns : List Func) (used : Finset String) (c : String) :
    c ∈ step_callees fns used ↔
      ∃ n ∈ used, ∃ fn, name_to_fn fns n = some fn ∧
        c ∈ collect_callees fn ∧ (name_to_fn fns c).isSome := by
  unfold step_callees
  rw [mem_foldr_append (callee_contrib fns)]
  constructor
  · rintro ⟨n, hn, hc⟩
    have hn' := List.mem_filter.mp hn
    unfold callee_contrib at hc
    rcases hh : name_to_fn fns n with _ | fn
    · rw [hh] at hc; cases hc
    · rw [hh] at hc
      have hcf := List.mem_filter.mp hc
      exact ⟨n, by simpa using hn'.2, fn, hh, hcf.1, by simpa using hcf.2⟩
  · rintro ⟨n, hn, fn, hfn, hc, hsome⟩
    refine ⟨n, List.mem_filter.mpr ⟨?_, by simpa using hn⟩, ?_⟩
    · obtain ⟨hmem, hname⟩ := name_to_fn_some fns n fn hfn
      exact List.mem_map.mpr ⟨fn, hmem, hname⟩
    · unfold callee_contrib
      rw [hfn]
      exact List.mem_filter.mpr ⟨hc, by simpa using hsome⟩

/-- Every name contributed by a closure step names a function. -/
theorem step_callees_names (fns : List Func) (used : Finset String) (c : String)
    (h : c ∈ step_callees fns used) : c ∈ fns.map Func.name := by
  obtain ⟨-, -, -, -, -, hsome⟩ := (mem_step_callees fns used c).mp h
  rcases hs : name_to_fn fns c with _ | fn
  · rw [hs] at hsome; cases hsome
  · obtain ⟨hmem, hname⟩ := name_to_fn_some fns c fn hs
    exact List.mem_map.mpr ⟨fn, hmem, hname⟩

/-- One closure step only grows the used set. -/
theorem subset_used_step (fns : List Func) (used : Finset String) :
    used ⊆ used_step fns used :=
  Finset.subset_union_left

/-- Unfolding the fuelled loop at a successor. -/
theorem used_loop_succ (fns : List Func) (fuel : Nat) (used : Finset String) :
    used_loop fns (fuel + 1) used =
      if used_step fns used = used then used
      else used_loop fns fuel (used_step fns used) :=
  rfl

/-- The loop only grows the used set. -/
theorem subset_used_loop (fns : List Func) :
    ∀ (fuel : Nat) (used : Finset String), used ⊆ used_loop fns fuel used := by
  intro fuel
  induction fuel with
  | zero => intro used; exact Finset.Subset.refl used
  | succ n ih =>
    intro used
    rw [used_loop_succ]
    by_cases hf : used_step fns used = used
    · rw [if_pos hf]
    · rw [if_neg hf]
      exact Finset.Subset.trans (subset_used_step fns used)
        (ih (used_step fns used))

/-- One closure step stays inside the used set plus the module's function
names. -/
theorem used_step_subset (fns : List Func) (used : Finset String) :
    used_step fns used ⊆ used ∪ (fns.map Func.name).toFinset := by
  intro x hx
  rcases Finset.mem_union.mp hx with hx | hx
  · exact Finset.mem_union_left _ hx
  · exact Finset.mem_union_right _
      (List.mem_toFinset.mpr (step_callees_names fns used x (List.mem_toFinset.mp hx)))

/-- With fuel exceeding the number of function names outside the seed, the
loop reaches a fixed point of the closure step. -/
theorem used_loop_fixed (fns : List Func) :
    ∀ (fuel : Nat) (used : Finset String),
      ((fns.map Func.name).toFinset \ used).card < fuel →
      used_step fns (used_loop fns fuel used) = used_loop fns fuel used := by
  intro fuel
  induction fuel with
  | zero => intro used h; exact absurd h (Nat.not_lt_zero _)
  | succ n ih =>
    intro used hcard
    rw [used_loop_succ]
    by_cases hf : used_step fns used = used
    · rw [if_pos hf]; exact hf
    · rw [if_neg hf]
      apply ih
      have hss : used ⊂ used_step fns used :=
        ssubset_of_subset_of_ne (subset_used_step fns used) (Ne.symm hf)
      obtain ⟨x, hxin, hxout⟩ := Finset.exists_of_ssubset hss
      have hxnames : x ∈ (fns.map Func.name).toFinset := by
        rcases Finset.mem_union.mp (used_step_subset fns used hxin) with h | h
        · exact absurd h hxout
        · exact h
      have hstrict : ((fns.map Func.name).toFinset \ used_step fns used) ⊂
          ((fns.map Func.name).toFinset \ used) := by
        refine Finset.ssubset_iff_of_subset
          (Finset.sdiff_subset_sdiff (Finset.Subset.refl _)
            (subset_used_step fns used)) |>.mpr ?_
        exact ⟨x, Finset.mem_sdiff.mpr ⟨hxnames, hxout⟩,
          fun hc => (Finset.mem_sdiff.mp hc).2 hxin⟩
      have := Finset.card_lt_card hstrict
      omega

/-- Every member of the seed is reachable in the spec's sense. -/
theorem used_seed_reachable (m : Module) :
    ∀ x ∈ used_seed m, ReachableName m x := by
  intro x hx
  rcases Finset.mem_union.mp hx with hx | hx
  · rw [List.mem_toFinset] at hx
    have hx' := List.mem_filter.mp hx
    rcases hh : name_to_fn m.functions x with _ | fn
    · rw [hh] at hx'; simp at hx'
    · rw [hh] at hx'
      obtain ⟨hmem, hname⟩ := name_to_fn_some m.functions x fn hh
      exact ReachableName.exported x fn hmem hname (by simpa using hx'.2)
  · exact ReachableName.table x (List.mem_toFinset.mp hx)

/-- Everything the loop collects from a reachable set stays reachable. -/
theorem used_loop_reachable (m : Module) :
    ∀ (fuel : Nat) (used : Finset String),
      (∀ x ∈ used, ReachableName m x) →
      ∀ x ∈ used_loop m.functions fuel used, ReachableName m x := by
  intro fuel
  induction fuel with
  | zero => intro used h x hx; exact h x hx
  | succ n ih =>
    intro used h x hx
    rw [used_loop_succ] at hx
    by_cases hf : used_step m.functions used = used
    · rw [if_pos hf] at hx; exact h x hx
    · rw [if_neg hf] at hx
      refine ih (used_step m.functions used) ?_ x hx
      intro y hy
      rcases Finset.mem_union.mp hy with hy | hy
      · exact h y hy
      · rw [List.mem_toFinset] at hy
        obtain ⟨n0, hn0, fn, hfn, hcal, -⟩ :=
          (mem_step_callees m.functions used y).mp hy
        obtain ⟨hmem, hname⟩ := name_to_fn_some m.functions n0 fn hfn
        exact ReachableName.call n0 y fn (h n0 hn0) hmem hname hcal

/-- Under pairwise-distinct function names, every spec-reachable name that
names a function is collected by the closure. -/
theorem reachable_in_used (m : Module)
    (hnd : (m.functions.map Func.name).Nodup) :
    ∀ n, ReachableName m n → (∃ fn ∈ m.functions, fn.name = n) →
      n ∈ used_loop m.functions (m.functions.length + 1) (used_seed m) := by
  have hcard : ((m.functions.map Func.name).toFinset \ used_seed m).card <
      m.functions.length + 1 := by
    have h1 : ((m.functions.map Func.name).toFinset \ used_seed m).card ≤
        (m.functions.map Func.name).toFinset.card :=
      Finset.card_le_card (Finset.sdiff_subset)
    have h2 : (m.functions.map Func.name).toFinset.card ≤
        (m.functions.map Func.name).length := List.toFinset_card_le _
    rw [List.length_map] at h2
    omega
  have hfix := used_loop_fixed m.functions (m.functions.length + 1)
    (used_seed m) hcard
  intro n hreach
  induction hreach with
  | exported n fn hmem hname hexp =>
    intro _
    apply subset_used_loop
    apply Finset.mem_union_left
    refine List.mem_toFinset.mpr (List.mem_filter.mpr ⟨?_, ?_⟩)
    · exact List.mem_map.mpr ⟨fn, hmem, hname⟩
    · rw [← hname, name_to_fn_of_nodup m.functions hnd fn hmem]
      simpa using hexp
  | table n hn =>
    intro _
    apply subset_used_loop
    exact Finset.mem_union_right _ (List.mem_toFinset.mpr hn)
  | call n0 c fn hreach0 hmem hname hcal ih =>
    intro hc
    obtain ⟨fnc, hmemc, hnamec⟩ := hc
    have hn0 : n0 ∈ used_loop m.functions (m.functions.length + 1) (used_seed m) :=
      ih ⟨fn, hmem, hname⟩
    have hstep : c ∈ step_callees m.functions
        (used_loop m.functions (m.functions.length + 1) (used_seed m)) := by
      refine (mem_step_callees _ _ _).mpr ⟨n0, hn0, fn, ?_, hcal, ?_⟩
      · rw [← hname]; exact name_to_fn_of_nodup m.functions hnd fn hmem
      · rw [← hnamec, name_to_fn_of_nodup m.functions hnd fnc hmemc]
        rfl
    rw [← hfix]
    exact Finset.mem_union_right _ (List.mem_toFinset.mpr hstep)

/-- Membership in phase A's kept list. -/
theorem mem_dce_fns_split (used : Finset String) :
    ∀ (l : List Func) (fn : Func),
      fn ∈ (dce_fns_split used l).1 ↔
        fn ∈ l ∧ ¬(fn.name ∉ used ∧ function_linkage fn = "internal" ∧
          fn.exported = false) := by
  intro l
  induction l with
  | nil => intro fn; simp [dce_fns_split]
  | cons f0 rest ih =>
    intro fn
    rw [dce_fns_split_cons_fst]
    by_cases hcond : f0.name ∉ used ∧ function_linkage f0 = "internal" ∧
        f0.exported = false
    · rw [if_pos hcond]
      constructor
      · intro h
        obtain ⟨h1, h2⟩ := (ih fn).mp h
        exact ⟨List.mem_cons_of_mem _ h1, h2⟩
      · rintro ⟨h1, h2⟩
        rcases List.mem_cons.mp h1 with rfl | h1
        · exact absurd hcond h2
        · exact (ih fn).mpr ⟨h1, h2⟩
    · rw [if_neg hcond]
      constructor
      · intro h
        rcases List.mem_cons.mp h with rfl | h
        · exact ⟨List.mem_cons_self _ _, hcond⟩
        · obtain ⟨h1, h2⟩ := (ih fn).mp h
          exact ⟨List.mem_cons_of_mem _ h1, h2⟩
      · rintro ⟨h1, h2⟩
        rcases List.mem_cons.mp h1 with rfl | h1
        · exact List.mem_cons_self _ _
        · exact List.mem_cons_of_mem _ ((ih fn).mpr ⟨h1, h2⟩)

/-- Every dropped function's certificate is in phase A's ledger. -/
theorem dce_fns_split_cert_of_drop (used : Finset String) :
    ∀ (l : List Func) (fn : Func), fn ∈ l →
      fn.name ∉ used → function_linkage fn = "internal" → fn.exported = false →
      DceCert.mk fn.name "function" ∈ (dce_fns_split used l).2 := by
  intro l
  induction l with
  | nil => intro fn h; cases h
  | cons f0 rest ih =>
    intro fn hmem h1 h2 h3
    rw [dce_fns_split_cons_snd]
    rcases List.mem_cons.mp hmem with rfl | hmem0
    · rw [if_pos ⟨h1, h2, h3⟩]
      exact List.mem_cons_self _ _
    · by_cases hcond : f0.name ∉ used ∧ function_linkage f0 = "internal" ∧
          f0.exported = false
      · rw [if_pos hcond]
        exact List.mem_cons_of_mem _ (ih fn hmem0 h1 h2 h3)
      · rw [if_neg hcond]
        exact ih fn hmem0 h1 h2 h3

/-- The code's closure collects only spec-reachable names. -/
theorem used_final_reachable (m : Module) :
    ∀ x ∈ used_loop m.functions (m.functions.length + 1) (used_seed m),
      ReachableName m x :=
  used_loop_reachable m (m.functions.length + 1) (used_seed m)
    (used_seed_reachable m)

/-- C5 counterexample: with duplicate function names, `g` is transitively
reachable from the EXPORTED function named `n` (so per the claim it must
survive), yet phase A drops it: the code resolves `n` through a name table
in which the later internal shadow wins, so the exported caller's edges are
never followed. -/
theorem claim_C5_counterexample :
    ReachableName dupM "g" ∧
    dupGFn ∈ dupM.functions ∧
    function_linkage dupGFn = "internal" ∧
    dupGFn ∉ (dce_functions dupM).1.functions ∧
    (dce_functions dupM).2 = [⟨"n", "function"⟩, ⟨"g", "function"⟩] := by
  refine ⟨ReachableName.call "n" "g" dupAFn
      (ReachableName.exported "n" dupAFn (by decide) rfl rfl)
      (by decide) rfl (by decide),
    by decide, rfl, by decide, rfl⟩

/-- C5 (amended): under pairwise-distinct function names, phase A of
`run_dce` keeps every function whose name is transitively reachable (in the
spec's sense) from an exported function or a table reference, and removes
every unreachable internal non-exported function with a `function`
certificate. -/
theorem claim_C5 (m : Module)
    (hnd : (m.functions.map Func.name).Nodup) :
    (∀ fn ∈ m.functions, ReachableName m fn.name →
        fn ∈ (dce_functions m).1.functions) ∧
    (∀ fn ∈ m.functions, ¬ ReachableName m fn.name →
        function_linkage fn = "internal" → fn.exported = false →
        fn ∉ (dce_functions m).1.functions ∧
        DceCert.mk fn.name "function" ∈ (dce_functions m).2) := by
  constructor
  · intro fn hmem hreach
    have hused : fn.name ∈
        used_loop m.functions (m.functions.length + 1) (used_seed m) :=
      reachable_in_used m hnd fn.name hreach ⟨fn, hmem, rfl⟩
    rw [dce_functions_eq]
    refine (mem_dce_fns_split _ m.functions fn).mpr ⟨hmem, ?_⟩
    rintro ⟨hnot, -, -⟩
    exact hnot hused
  · intro fn hmem hnreach hlink hexp
    have hnot : fn.name ∉
        used_loop m.functions (m.functions.length + 1) (used_seed m) := by
      intro hin
      exact hnreach (used_final_reachable m fn.name hin)
    constructor
    · rw [dce_functions_eq]
      intro hkept
      exact ((mem_dce_fns_split _ m.functions fn).mp hkept).2 ⟨hnot, hlink, hexp⟩
    · rw [dce_functions_eq]
      exact dce_fns_split_cert_of_drop _ m.functions fn hmem hnot hlink hexp

/-- Witness for C5: on the concrete module, `helper` (reachable from the
exported `main`) survives and `deadfn` is removed with its certificate. -/
theorem claim_C5_witness :
    helperFn5 ∈ (dce_functions m5).1.functions ∧
    deadFn5 ∉ (dce_functions m5).1.functions ∧
    DceCert.mk "deadfn" "function" ∈ (dce_functions m5).2 := by
  have hnd : (m5.functions.map Func.name).Nodup := by decide
  have hreach : ReachableName m5 helperFn5.name :=
    ReachableName.call "main" "helper" mainFn5
      (ReachableName.exported "main" mainFn5 (by decide) rfl rfl)
      (by decide) rfl (by decide)
  have hnreach : ¬ ReachableName m5 deadFn5.name := by
    intro h
    generalize hgen : deadFn5.name = nm at h
    induction h with
    | exported n fn hmem hname hexp =>
      subst hgen
      simp only [m5, List.mem_cons, List.not_mem_nil, or_false] at hmem
      rcases hmem with rfl | rfl | rfl
      · exact absurd hname (by decide)
      · exact absurd hname (by decide)
      · exact absurd hexp (by decide)
    | table n hn =>
      subst hgen
      revert hn
      decide
    | call n c fn hreach0 hmem hname hcal ih =>
      subst hgen
      simp only [m5, List.mem_cons, List.not_mem_nil, or_false] at hmem
      rcases hmem with rfl | rfl | rfl
      · revert hcal; decide
      · revert hcal; decide
      · revert hcal; decide
  refine ⟨(claim_C5 m5 hnd).1 helperFn5 (by decide) hreach,
    ((claim_C5 m5 hnd).2 deadFn5 (by decide) hnreach rfl rfl).1,
    ((claim_C5 m5 hnd).2 deadFn5 (by decide) hnreach rfl rfl).2⟩

end Oir
